import Mathlib

/-!
Verification of the clot repository's bencode codec (src/bencode/decoder.py,
src/bencode/encoder.py) and its torrent field layer (src/clot/torrent/layout.py,
validators.py, backbone.py).

Byte strings are modelled as `List Nat` (each entry one byte), Python `int` as
`Int` / `Nat`, and raised exceptions as the error branch of `Except String`.
Error messages keep the source's wording but drop the `format`ted payloads.
-/

namespace Clot

/-- ASCII whitespace bytes, those stripped by Python `int()` on a bytes argument. -/
def isWS (b : Nat) : Bool := b = 9 || b = 10 || b = 11 || b = 12 || b = 13 || b = 32

/-- ASCII decimal digit bytes. -/
def isDigit (b : Nat) : Bool := 48 ≤ b && b ≤ 57

/-- Little-endian base-10 digits with explicit fuel (so the kernel can reduce it). -/
def digitsLE : Nat → Nat → List Nat
  | 0, _ => []
  | fuel + 1, n => if n = 0 then [] else n % 10 :: digitsLE fuel (n / 10)

/-- `str(n)` for a natural number: ASCII bytes of the canonical decimal text. -/
def natToDecimal (n : Nat) : List Nat :=
  if n = 0 then [48] else ((digitsLE (n + 1) n).reverse).map (· + 48)

/-- `str(n)` for a Python int: ASCII bytes of the canonical decimal text. -/
def intToDecimal (n : Int) : List Nat :=
  if n < 0 then 45 :: natToDecimal n.natAbs else natToDecimal n.toNat

/-- Value of a big-endian list of ASCII digit bytes. -/
def digitsVal (l : List Nat) : Nat := l.foldl (fun a d => a * 10 + (d - 48)) 0

mutual

/-- Digit run of Python `int()`: after the first digit, every following digit may be
preceded by a single underscore. `acc` is the value accumulated so far. -/
def digitRun (acc : Nat) : List Nat → Option Nat
  | [] => some acc
  | b :: r =>
    if isDigit b then digitRun (acc * 10 + (b - 48)) r
    else if b = 95 then digitRunU acc r
    else none

/-- After an underscore: exactly one more digit must follow. -/
def digitRunU (acc : Nat) : List Nat → Option Nat
  | [] => none
  | b2 :: r2 => if isDigit b2 then digitRun (acc * 10 + (b2 - 48)) r2 else none

end

/-- The digit part of Python `int()`: one digit, then `digitRun`. -/
def parseDigits : List Nat → Option Nat
  | [] => none
  | b :: r => if isDigit b then digitRun (b - 48) r else none

/-- Strip trailing ASCII whitespace. -/
def stripEndWS (l : List Nat) : List Nat := ((l.reverse).dropWhile isWS).reverse

/-- The sign-and-digits part of Python `int(bytes)`, after whitespace stripping. -/
def pyIntCore : List Nat → Option Int
  | [] => none
  | b :: r =>
    if b = 45 then (parseDigits r).map (fun m => -(Int.ofNat m))
    else if b = 43 then (parseDigits r).map (fun m => Int.ofNat m)
    else (parseDigits (b :: r)).map (fun m => Int.ofNat m)

/-- Python `int(bytes)`: optional surrounding whitespace, optional sign, then a
digit run with optional single underscores between digits. `none` models the
`invalid literal for int()` ValueError. -/
def pyIntParse (s : List Nat) : Option Int := pyIntCore (stripEndWS (s.dropWhile isWS))

/-- Index of the first occurrence of byte `t`, as Python `bytes.find`. -/
def findByte (t : Nat) : List Nat → Option Nat
  | [] => none
  | b :: rest => if b = t then some 0 else (findByte t rest).map (· + 1)

/-- A decoded bencode value: the possible results of `bencode.decode`.
Dictionaries are association lists in insertion (= parse) order. -/
inductive Bval where
  | bs : List Nat → Bval
  | int : Int → Bval
  | list : List Bval → Bval
  | dict : List (List Nat × Bval) → Bval

/-- `_decode_bytes` from src/bencode/decoder.py, acting on the suffix of the input
that starts at the selector digit. Returns the value and the remaining suffix.
The parsed size is never negative in reachable states (the segment starts with a
digit, so `pyIntParse` cannot see a sign); the `Int.toNat` coercions below agree
with the source there. -/
def decodeBytes : List Nat → Except String (Bval × List Nat)
  | [] => .error "string index out of range"
  | b :: rest =>
    match findByte 58 rest with
    | none => .error "missing data size delimiter"
    | some i =>
      match pyIntParse (b :: rest.take i) with
      | none => .error "invalid literal for int"
      | some size =>
        if (intToDecimal size).length ≠ i + 1 then .error "malformed data size"
        else
          let content := rest.drop (i + 1)
          if (content.length : Int) < size then .error "wrong data size"
          else .ok (.bs (content.take size.toNat), content.drop size.toNat)

/-- `_decode_int` from src/bencode/decoder.py, acting on the suffix right after
the `i` selector. -/
def decodeInt (s : List Nat) : Except String (Bval × List Nat) :=
  match findByte 101 s with
  | none => .error "missing int value terminator"
  | some i =>
    match pyIntParse (s.take i) with
    | none => .error "invalid literal for int"
    | some n =>
      if (intToDecimal n).length ≠ i then .error "malformed int value"
      else .ok (.int n, s.drop (i + 1))

mutual

/-- `_decode_item` from src/bencode/decoder.py: dispatch on the selector byte at
the cursor. The fuel argument models Python's recursion limit; it only
decreases when entering a list or dictionary. -/
def decodeItem : Nat → List Nat → Except String (Bval × List Nat)
  | _, [] => .error "string index out of range"
  | fuel, b :: rest =>
    if isDigit b then decodeBytes (b :: rest)
    else if b = 105 then decodeInt rest
    else if b = 108 then
      match fuel with
      | 0 => .error "maximum recursion depth exceeded"
      | f + 1 =>
        match decodeList f rest with
        | .ok (items, r) => .ok (.list items, r)
        | .error e => .error e
    else if b = 100 then
      match fuel with
      | 0 => .error "maximum recursion depth exceeded"
      | f + 1 =>
        match decodeDict f rest [] with
        | .ok (pairs, r) => .ok (.dict pairs, r)
        | .error e => .error e
    else .error "unknown type selector"

/-- The loop of `_decode_list`, acting on the suffix right after the `l` selector.
Each loop turn consumes one unit of fuel. -/
def decodeList : Nat → List Nat → Except String (List Bval × List Nat)
  | _, [] => .error "missing list value terminator"
  | fuel, b :: rest =>
    if b = 101 then .ok ([], rest)
    else
      match fuel with
      | 0 => .error "maximum recursion depth exceeded"
      | f + 1 =>
        match decodeItem f (b :: rest) with
        | .error e => .error e
        | .ok (v, r1) =>
          match decodeList f r1 with
          | .error e => .error e
          | .ok (items, r2) => .ok (v :: items, r2)

/-- The loop of `_decode_dict`, acting on the suffix right after the `d` selector.
`seen` carries the keys decoded so far (Python's `key in result`).
Each loop turn consumes one unit of fuel. -/
def decodeDict : Nat → List Nat → List (List Nat) → Except String (List (List Nat × Bval) × List Nat)
  | _, [], _ => .error "missing dict value terminator"
  | fuel, b :: rest, seen =>
    if b = 101 then .ok ([], rest)
    else
      match fuel with
      | 0 => .error "maximum recursion depth exceeded"
      | f + 1 =>
        match decodeItem f (b :: rest) with
        | .error e => .error e
        | .ok (kv, r1) =>
          match kv with
          | .bs k =>
            if k ∈ seen then .error "duplicate key"
            else
              match decodeItem f r1 with
              | .error e => .error e
              | .ok (v, r2) =>
                match decodeDict f r2 (k :: seen) with
                | .error e => .error e
                | .ok (pairs, r3) => .ok ((k, v) :: pairs, r3)
          | _ => .error "unsupported key type"

end

/-- `decode` from src/bencode/decoder.py (the `TypeError` on non-bytes input is
outside the model: the argument type already is a byte list). -/
def decode (value : List Nat) : Except String Bval :=
  if value = [] then .error "value is empty"
  else
    match decodeItem value.length value with
    | .error e => .error e
    | .ok (v, rest) => if rest = [] then .ok v else .error "extra bytes at the end"

/-! ## UTF-8 (Python `str.encode()` / strict `bytes.decode()`) -/

/-- UTF-8 bytes of one Unicode scalar value. -/
def utf8EncodeChar (c : Nat) : List Nat :=
  if c < 128 then [c]
  else if c < 2048 then [192 + c / 64, 128 + c % 64]
  else if c < 65536 then [224 + c / 4096, 128 + c / 64 % 64, 128 + c % 64]
  else [240 + c / 262144, 128 + c / 4096 % 64, 128 + c / 64 % 64, 128 + c % 64]

/-- Python `str.encode()`: the UTF-8 bytes of a text string. -/
def bstr (s : String) : List Nat := (s.data.map (fun c => utf8EncodeChar c.toNat)).flatten

/-- Strict UTF-8 decoding (fuel-driven; one byte is always consumed per step).
Rejects truncated sequences, stray continuation bytes, overlong forms,
surrogates and code points past U+10FFFF, as CPython's strict codec does. -/
def utf8DecodeAux : Nat → List Nat → Option (List Char)
  | 0, _ => none
  | _, [] => some []
  | fuel + 1, b :: rest =>
    if b < 128 then (utf8DecodeAux fuel rest).map (fun cs => Char.ofNat b :: cs)
    else if b < 194 then none
    else if b < 224 then
      match rest with
      | b1 :: r =>
        if 128 ≤ b1 && b1 < 192 then
          (utf8DecodeAux fuel r).map (fun cs => Char.ofNat ((b - 192) * 64 + (b1 - 128)) :: cs)
        else none
      | _ => none
    else if b < 240 then
      match rest with
      | b1 :: b2 :: r =>
        if 128 ≤ b1 && b1 < 192 && 128 ≤ b2 && b2 < 192 then
          let c := (b - 224) * 4096 + (b1 - 128) * 64 + (b2 - 128)
          if 2048 ≤ c && (c < 55296 || 57344 ≤ c) then
            (utf8DecodeAux fuel r).map (fun cs => Char.ofNat c :: cs)
          else none
        else none
      | _ => none
    else if b < 245 then
      match rest with
      | b1 :: b2 :: b3 :: r =>
        if 128 ≤ b1 && b1 < 192 && 128 ≤ b2 && b2 < 192 && 128 ≤ b3 && b3 < 192 then
          let c := (b - 240) * 262144 + (b1 - 128) * 4096 + (b2 - 128) * 64 + (b3 - 128)
          if 65536 ≤ c && c < 1114112 then
            (utf8DecodeAux fuel r).map (fun cs => Char.ofNat c :: cs)
          else none
        else none
      | _ => none
    else none

/-- Python `bytes.decode()` with the strict UTF-8 codec. -/
def utf8Str (l : List Nat) : Option String := (utf8DecodeAux (l.length + 1) l).map String.mk

/-! ## The encoder (src/bencode/encoder.py)

The value universe `PyVal` is the closed set of types the encoder registers:
bytes, str, int, bool, list, tuple, dict. The `TypeError` branches for types
outside this universe are therefore not modelled. -/

/-- A Python dictionary key accepted by `_iter_dict_check_keys`. -/
inductive PyKey where
  | bytes : List Nat → PyKey
  | str : String → PyKey

/-- A Python value of the kinds registered with the encoder. Dictionaries are
association lists in insertion order (a Python dict never holds the same key
twice, but may hold a bytes key and a str key that encode identically). -/
inductive PyVal where
  | bytes : List Nat → PyVal
  | str : String → PyVal
  | int : Int → PyVal
  | bool : Bool → PyVal
  | list : List PyVal → PyVal
  | tup : List PyVal → PyVal
  | dict : List (PyKey × PyVal) → PyVal

/-- Key projection of `_iter_dict_check_keys`: a str key becomes its UTF-8 bytes
with sort tiebreaker 1, a bytes key stays as is with tiebreaker 0. -/
def projKey : PyKey → List Nat × Nat
  | .bytes k => (k, 0)
  | .str s => (bstr s, 1)

/-- `_encode_bytes`: the concatenation of the parts `b'%d' % len`, `b':'`, and
(when non-empty) the raw bytes. -/
def encBytes (s : List Nat) : List Nat := natToDecimal s.length ++ 58 :: s

/-- Sort order of `sorted(_iter_dict_check_keys(values))`: ascending by encoded
key, then by the 0/1 tiebreaker. (Python would compare the remaining tuple
components on a full tie, but a dict cannot produce two entries with equal
encoded key and equal tiebreaker.) -/
def entLe (a b : (List Nat × Nat) × Except String (List Nat)) : Prop :=
  a.1.1 < b.1.1 ∨ (a.1.1 = b.1.1 ∧ a.1.2 ≤ b.1.2)

instance : DecidableRel entLe := fun a b => by unfold entLe; infer_instance

instance : IsTotal ((List Nat × Nat) × Except String (List Nat)) entLe := ⟨by
  intro a b
  unfold entLe
  rcases lt_trichotomy a.1.1 b.1.1 with h | h | h
  · exact Or.inl (Or.inl h)
  · rcases le_total a.1.2 b.1.2 with h2 | h2
    · exact Or.inl (Or.inr ⟨h, h2⟩)
    · exact Or.inr (Or.inr ⟨h.symm, h2⟩)
  · exact Or.inr (Or.inl h)⟩

instance : IsTrans ((List Nat × Nat) × Except String (List Nat)) entLe := ⟨by
  intro a b c hab hbc
  unfold entLe at hab hbc ⊢
  rcases hab with h1 | ⟨h1, h1t⟩ <;> rcases hbc with h2 | ⟨h2, h2t⟩
  · exact Or.inl (h1.trans h2)
  · exact Or.inl (h2 ▸ h1)
  · exact Or.inl (h1 ▸ h2)
  · exact Or.inr ⟨h1.trans h2, h1t.trans h2t⟩⟩

/-- The emission loop of `_encode_dict` over the sorted entries: raise on a
repeated encoded key, else yield the encoded key then the encoded value. Each
entry carries the (lazily surfaced) encoding result of its value. -/
def emitPairs : Option (List Nat) → List ((List Nat × Nat) × Except String (List Nat)) →
    Except String (List Nat)
  | _, [] => .ok []
  | last, ((k, _), res) :: rest =>
    if some k = last then .error "duplicate key"
    else
      match res with
      | .error e => .error e
      | .ok ev =>
        match emitPairs (some k) rest with
        | .error e => .error e
        | .ok tail => .ok (encBytes k ++ ev ++ tail)

mutual

/-- `iterencode`/`func` from src/bencode/encoder.py, with the yielded chunks
concatenated (as `encode` does). -/
def encItem : PyVal → Except String (List Nat)
  | .bytes s => .ok (encBytes s)
  | .str s => .ok (encBytes (bstr s))
  | .int n => .ok (105 :: (intToDecimal n ++ [101]))
  | .bool b => .ok (105 :: (if b then 49 else 48) :: [101])
  | .list vs =>
    match encSeq vs with
    | .error e => .error e
    | .ok parts => .ok (108 :: (parts ++ [101]))
  | .tup vs =>
    match encSeq vs with
    | .error e => .error e
    | .ok parts => .ok (108 :: (parts ++ [101]))
  | .dict entries =>
    match emitPairs none (List.insertionSort entLe (encEntries entries)) with
    | .error e => .error e
    | .ok parts => .ok (100 :: (parts ++ [101]))

/-- `_encode_list`: encode the members in order. -/
def encSeq : List PyVal → Except String (List Nat)
  | [] => .ok []
  | v :: vs =>
    match encItem v with
    | .error e => .error e
    | .ok part =>
      match encSeq vs with
      | .error e => .error e
      | .ok parts => .ok (part ++ parts)

/-- `_iter_dict_check_keys`: project every key and pair it with its value's
encoding result (the result is surfaced later, at the entry's sorted
position, exactly when the generator would encode that value). -/
def encEntries : List (PyKey × PyVal) → List ((List Nat × Nat) × Except String (List Nat))
  | [] => []
  | (k, v) :: rest => (projKey k, encItem v) :: encEntries rest

end

/-- `encode` from src/bencode/encoder.py. -/
def encode (v : PyVal) : Except String (List Nat) := encItem v

mutual

/-- The injection of decoded values into the encoder's universe. -/
def toPy : Bval → PyVal
  | .bs s => .bytes s
  | .int n => .int n
  | .list vs => .list (toPyL vs)
  | .dict ps => .dict (toPyP ps)

/-- Member-wise `toPy` on lists. -/
def toPyL : List Bval → List PyVal
  | [] => []
  | v :: vs => toPy v :: toPyL vs

/-- Member-wise `toPy` on dictionary entries. -/
def toPyP : List (List Nat × Bval) → List (PyKey × PyVal)
  | [] => []
  | (k, v) :: ps => (.bytes k, toPy v) :: toPyP ps

end

/-! ## Well-formedness, canonical form, and Python equality of decoded values -/

/-- Dictionary lookup on an association list, as Python `result[key]` /
`key in result` (first binding wins; decoded dictionaries never bind a key
twice). -/
def lookupA : List Nat → List (List Nat × Bval) → Option Bval
  | _, [] => none
  | k, (k', v) :: ps => if k' = k then some v else lookupA k ps

/-- No element occurs twice. -/
def dupFree : List (List Nat) → Bool
  | [] => true
  | k :: ks => !ks.contains k && dupFree ks

mutual

/-- Every dictionary node binds pairwise distinct keys. This holds of every
value `decode` can return, and is the hypothesis of the round-trip claim. -/
def wellKeyed : Bval → Bool
  | .bs _ => true
  | .int _ => true
  | .list vs => wellKeyedL vs
  | .dict ps => dupFree (ps.map Prod.fst) && wellKeyedP ps

/-- `wellKeyed` on every member. -/
def wellKeyedL : List Bval → Bool
  | [] => true
  | v :: vs => wellKeyed v && wellKeyedL vs

/-- `wellKeyed` on every binding's value. -/
def wellKeyedP : List (List Nat × Bval) → Bool
  | [] => true
  | (_, v) :: ps => wellKeyed v && wellKeyedP ps

end

/-- Entry order used for the canonical form: ascending by key. -/
def keyLe (a b : List Nat × Bval) : Prop := a.1 ≤ b.1

instance : DecidableRel keyLe := fun a b => by unfold keyLe; infer_instance

mutual

/-- The canonical form of a decoded value: every dictionary node sorted by key.
`decode (encode v)` returns exactly `canon v`. -/
def canon : Bval → Bval
  | .bs s => .bs s
  | .int n => .int n
  | .list vs => .list (canonL vs)
  | .dict ps => .dict (List.insertionSort keyLe (canonP ps))

/-- `canon` on every member. -/
def canonL : List Bval → List Bval
  | [] => []
  | v :: vs => canon v :: canonL vs

/-- `canon` on every binding's value. -/
def canonP : List (List Nat × Bval) → List (List Nat × Bval)
  | [] => []
  | (k, v) :: ps => (k, canon v) :: canonP ps

end

mutual

/-- Fuel sufficient for `decodeItem` to parse the encoding of a value. -/
def fuelFor : Bval → Nat
  | .bs _ => 0
  | .int _ => 0
  | .list vs => 1 + fuelForL vs
  | .dict ps => 1 + fuelForP ps

/-- Fuel sufficient for the `decodeList` loop over the encodings of `vs`. -/
def fuelForL : List Bval → Nat
  | [] => 0
  | v :: vs => 1 + fuelFor v + fuelForL vs

/-- Fuel sufficient for the `decodeDict` loop over the encodings of `ps`. -/
def fuelForP : List (List Nat × Bval) → Nat
  | [] => 0
  | (_, v) :: ps => 1 + fuelFor v + fuelForP ps

end

/-- The byte list `encode` produces for a decoded value (the empty list when a
nested duplicate key makes encoding fail, which `wellKeyed` rules out). -/
def encOf (v : Bval) : List Nat :=
  match encItem (toPy v) with
  | .ok e => e
  | .error _ => []

/-- An encoding `e` of `v` that the decoder turns back into `canon v` at any
sufficient fuel, leaving the rest of the input untouched. The head byte of an
encoding is a type selector, never the terminator `e`. -/
def GoodEnc (v : Bval) (e : List Nat) : Prop :=
  (∃ b t, e = b :: t ∧ b ≠ 101) ∧ 1 + fuelFor v ≤ e.length ∧
  ∀ f rest, fuelFor v ≤ f → decodeItem f (e ++ rest) = .ok (canon v, rest)

/-- Python `==` on decoded values: structural equality except that dictionaries
compare as unordered key/value mappings (same size and pointwise equal values
under lookup), which is how `dict.__eq__` behaves. -/
inductive PyEqv : Bval → Bval → Prop where
  | bs (s : List Nat) : PyEqv (.bs s) (.bs s)
  | int (n : Int) : PyEqv (.int n) (.int n)
  | list {vs ws : List Bval} : List.Forall₂ PyEqv vs ws → PyEqv (.list vs) (.list ws)
  | dict {ps qs : List (List Nat × Bval)} : ps.length = qs.length →
      (∀ k, (lookupA k ps).isSome → (lookupA k qs).isSome) →
      (∀ k v w, lookupA k ps = some v → lookupA k qs = some w → PyEqv v w) →
      PyEqv (.dict ps) (.dict qs)

/-! ## The torrent field layer (src/clot/torrent)

`layout.py` gives every field descriptor a `load_from` that pulls the raw
value out of the instance's backing dictionary, validates it, removes the
consulted key, marks the field loaded, and caches the value in a private
attribute.  `validators.py` lets the `Encoded` policy override `load_value`
with a multi-candidate character-set decode that reads the sibling
`codepage` and `encoding` fields through `getattr` (which can itself trigger
their `load_from`).  The whole protocol is embedded as one fuel-driven state
machine `runLoad` over explicit torrent states. -/

/-- A Python runtime value held by the torrent layer: what
`bencode.decode(..., keytostr=True)` produces (bytes, int, list, dict with
text keys) or a value produced by a field transform (text). -/
inductive RVal where
  | bytes : List Nat → RVal
  | str : String → RVal
  | int : Int → RVal
  | list : List RVal → RVal
  | dict : List (String × RVal) → RVal

/-- Python truthiness (`bool(value)`) for the value shapes of `RVal`. -/
def truthy : RVal → Bool
  | .bytes [] => false
  | .bytes (_ :: _) => true
  | .str s => !(s == "")
  | .int n => !(n == 0)
  | .list [] => false
  | .list (_ :: _) => true
  | .dict [] => false
  | .dict (_ :: _) => true

/-- ASCII uppercasing of one character (encoding names, the only strings the
normalisation below is applied to, are ASCII). -/
def upChar (c : Char) : Char :=
  if 97 ≤ c.toNat ∧ c.toNat ≤ 122 then Char.ofNat (c.toNat - 32) else c

/-- `value.replace('_', '-').upper()` from `Encoded.load_value`. -/
def normUp (s : String) : String :=
  String.mk (s.data.map (fun c => upChar (if c = '_' then '-' else c)))

/-- The test `encoding.replace('_', '-').upper() in ('UTF-8', 'UTF8')`. -/
def isUtf8Name (s : String) : Bool := normUp s == "UTF-8" || normUp s == "UTF8"

/-- Python `dict` lookup on an insertion-ordered association list. -/
def alookup {α : Type} : List (String × α) → String → Option α
  | [], _ => none
  | (k, v) :: t, key => if k = key then some v else alookup t key

/-- Python `dict.pop(key, None)` / `del dict[key]`: drop the binding. -/
def adelete {α : Type} : List (String × α) → String → List (String × α)
  | [], _ => []
  | (k, v) :: t, key => if k = key then t else (k, v) :: adelete t key

/-- Python `dict[key] = v`: overwrite in place, or append a new binding. -/
def aset {α : Type} : List (String × α) → String → α → List (String × α)
  | [], key, v => [(key, v)]
  | (k, w) :: t, key, v => if k = key then (k, v) :: t else (k, w) :: aset t key v

/-- A field's validator chain, as declared in `metainfo.py`: either the plain
`Validator.load_value` (the raw dictionary value, then an optional transform
such as `UnixEpoch`, then the `validate` chain), or the `Encoded.load_value`
override with its optional explicit per-field encoding. -/
inductive FieldKind where
  | plain : (RVal → Except String RVal) → (RVal → Except String Unit) → FieldKind
  | encoded : Option String → (RVal → Except String Unit) → FieldKind

/-- One declared field: attribute name, dictionary key, validator chain. -/
structure FieldSpec where
  name : String
  key : String
  kind : FieldKind

/-- The `validate` chain of either field kind. -/
def kindValidate : FieldKind → (RVal → Except String Unit)
  | .plain _ v => v
  | .encoded _ v => v

/-- `True` when loading the field can never read another attribute: a plain
field, or an `Encoded` field with a truthy explicit per-field encoding
(`Encoded.load_value` only calls `getattr` on its `else` branch). -/
def nonRecursive : FieldKind → Bool
  | .plain _ _ => true
  | .encoded (some enc) _ => !(enc == "")
  | .encoded none _ => false

/-- The state of one record instance: the backing dictionary `data`, the
private attribute slots (`setattr(instance, self.private_name, value)`; an
entry holding `none` is Python `None`), the per-descriptor `loaded` flags,
the caller-supplied `fallback_encoding`, and a ghost count of how many times
each field's `load_from` has started (no Python counterpart; it only
observes the execution). -/
structure TState where
  data : List (String × RVal)
  slots : List (String × Option RVal)
  flags : List (String × Bool)
  counts : String → Nat
  fallback : Option String

/-- Ghost bookkeeping: one more `load_from` started for field `n`. -/
def bump (n : String) (st : TState) : TState :=
  { st with counts := fun m => if m = n then st.counts m + 1 else st.counts m }

/-- The tail of a successful `Attr.load_from`: `self.delete_value(instance)`,
`self.loaded = True`, `setattr(instance, self.private_name, value)`. -/
def finishLoad (f : FieldSpec) (val : Option RVal) (st : TState) : TState :=
  { st with data := adelete st.data f.key,
            flags := aset st.flags f.name true,
            slots := aset st.slots f.name val }

/-- The Python behaviours the embedding abstracts over: `bytes.decode(enc)`
(`some text` on success, `none` on `UnicodeDecodeError`) and the `str()`
conversion used by f-strings. -/
structure PyOracle where
  dec : String → List Nat → Option String
  fmt : RVal → String

/-- The candidate loop of `Encoded.load_value`: return the first candidate's
successful decode, else keep trying. -/
def tryDecode (O : PyOracle) (bs : List Nat) : List String → Option String
  | [] => none
  | enc :: rest =>
    match O.dec enc bs with
    | some s => some s
    | none => tryDecode O bs rest

/-- The candidate list built by the `else` branch of `Encoded.load_value`
from the resolved context encoding (the record's `encoding` field, or the
`codepage`-derived name) and the caller's fallback: the context name when it
is not a spelling of UTF-8, then `'UTF-8'`, then a truthy fallback. -/
def ctxCandidates (ctx : Option String) (fallback : Option String) : List String :=
  (match ctx with
   | some c => if isUtf8Name c then [] else [c]
   | none => []) ++ ["UTF-8"] ++
  (match fallback with
   | some fb => if fb == "" then [] else [fb]
   | none => [])

/-- The calls the field machinery can make: `Attr.load_from` on a field,
`getattr(instance, name, None)`, and the context-resolving `else` branch of
`Encoded.load_value` for a field whose raw bytes are given. -/
inductive LoadCall where
  | loadFrom : FieldSpec → LoadCall
  | getat : String → LoadCall
  | ctxResolve : FieldSpec → List Nat → LoadCall

/-- The field protocol of `layout.py`/`validators.py` as one fuel-driven
machine.  `.loadFrom f` is `Attr.load_from`: look the key up in `data`
(`KeyError` caches `None` without validating), run the kind's
`load_value`/`validate`, and on success pop the key, set the `loaded` flag
and fill the slot; an error is raised with the mutations made so far kept
(the `Except.error` payload carries the state).  `.getat name` is
`getattr(instance, name, None)`: the special instance attribute
`fallback_encoding`, else a declared field's cached slot, else that field's
`load_from`, else `None`.  `.ctxResolve f bs` is the `else` branch of
`Encoded.load_value`: read `codepage` and `encoding` through `getattr`,
derive the candidate list, and decode `bs` with the first candidate that
succeeds; decoding failure raises a `ValueError` naming every candidate
(`AttributeError` when the resolved context value has no `.replace`, i.e. is
not text).  The fuel only bounds the `getattr` recursion depth, standing in
for Python's recursion limit. -/
def runLoad (O : PyOracle) (fields : List FieldSpec) :
    Nat → LoadCall → TState → Except (String × TState) (TState × Option RVal)
  | 0, _, st => .error ("maximum recursion depth exceeded", st)
  | fuel + 1, .getat name, st =>
    if name = "fallback_encoding" then .ok (st, st.fallback.map RVal.str)
    else
      match fields.find? (fun f => f.name == name) with
      | none => .ok (st, none)
      | some f =>
        match alookup st.slots f.name with
        | some v => .ok (st, v)
        | none => runLoad O fields fuel (.loadFrom f) st
  | fuel + 1, .loadFrom f, st =>
    let stb := bump f.name st
    match f.kind with
    | .plain load validate =>
      match alookup stb.data f.key with
      | none => .ok (finishLoad f none stb, none)
      | some raw =>
        match load raw with
        | .error e => .error (e, stb)
        | .ok v =>
          match validate v with
          | .error e => .error (e, stb)
          | .ok _ => .ok (finishLoad f (some v) stb, some v)
    | .encoded explicit validate =>
      match alookup stb.data f.key with
      | none => .ok (finishLoad f none stb, none)
      | some (RVal.bytes bs) =>
        match explicit with
        | some enc =>
          if enc == "" then runLoad O fields fuel (.ctxResolve f bs) stb
          else
            match tryDecode O bs [enc] with
            | some s =>
              match validate (RVal.str s) with
              | .error e => .error (e, stb)
              | .ok _ => .ok (finishLoad f (some (RVal.str s)) stb, some (RVal.str s))
            | none =>
              .error (f.name ++ ": cannot decode as " ++
                String.intercalate " or " [enc], stb)
        | none => runLoad O fields fuel (.ctxResolve f bs) stb
      | some _ => .error (f.name ++ ": expected bytes", stb)
  | fuel + 1, .ctxResolve f bs, st =>
    match runLoad O fields fuel (.getat "codepage") st with
    | .error err => .error err
    | .ok (st1, cpv) =>
      let cp : Option String :=
        match cpv with
        | some v => if truthy v then some ("cp" ++ O.fmt v) else none
        | none => none
      match runLoad O fields fuel (.getat "encoding") st1 with
      | .error err => .error err
      | .ok (st2, encv) =>
        let ctxE : Except String (Option String) :=
          match encv with
          | some v =>
            if truthy v then
              match v with
              | .str s => .ok (some s)
              | _ => .error "object has no replace method"
            else .ok cp
          | none => .ok cp
        match ctxE with
        | .error e => .error (e, st2)
        | .ok ctx =>
          let encodings := ctxCandidates ctx st2.fallback
          match tryDecode O bs encodings with
          | some s =>
            match kindValidate f.kind (RVal.str s) with
            | .error e => .error (e, st2)
            | .ok _ => .ok (finishLoad f (some (RVal.str s)) st2, some (RVal.str s))
          | none =>
            .error (f.name ++ ": cannot decode as " ++
              String.intercalate " or " encodings, st2)

/-- The loop body of `load_fields` from `layout.py`: visit the declared
fields in order, loading a field only when its `loaded` flag is still unset. -/
def loadLoop (O : PyOracle) (fields : List FieldSpec) (fuel : Nat) :
    List FieldSpec → TState → Except (String × TState) TState
  | [], st => .ok st
  | f :: rest, st =>
    if alookup st.flags f.name = some true then loadLoop O fields fuel rest st
    else
      match runLoad O fields fuel (.loadFrom f) st with
      | .error err => .error err
      | .ok (st', _) => loadLoop O fields fuel rest st'

/-- `for field in self._fields: field.loaded = False`. -/
def resetFlags (fields : List FieldSpec) (st : TState) : TState :=
  { st with flags := fields.map (fun f => (f.name, false)) }

/-- `load_fields` from `layout.py`: clear every `loaded` flag, then load each
still-unloaded field in declaration order. -/
def load_fields (O : PyOracle) (fields : List FieldSpec) (fuel : Nat) (st : TState) :
    Except (String × TState) TState :=
  loadLoop O fields fuel fields (resetFlags fields st)

mutual

/-- Modelled from the spec: the text-key mode of `bencode.decode`
(`keytostr=True`).  The decoder itself ships without the flag in `src/`, so
the conversion pass follows the spec's words (and the shipped tests):
every dictionary key is decoded as strict UTF-8, and a key that fails to
decode raises the invalid-UTF-8-key error. -/
def convert : Bval → Except String RVal
  | .bs b => .ok (.bytes b)
  | .int n => .ok (.int n)
  | .list vs =>
    match convertL vs with
    | .error e => .error e
    | .ok rs => .ok (.list rs)
  | .dict ps =>
    match convertP ps with
    | .error e => .error e
    | .ok qs => .ok (.dict qs)

/-- Modelled from the spec: `convert` on every list member. -/
def convertL : List Bval → Except String (List RVal)
  | [] => .ok []
  | v :: vs =>
    match convert v with
    | .error e => .error e
    | .ok r =>
      match convertL vs with
      | .error e => .error e
      | .ok rs => .ok (r :: rs)

/-- Modelled from the spec: dictionary entries with each key decoded as
strict UTF-8. -/
def convertP : List (List Nat × Bval) → Except String (List (String × RVal))
  | [] => .ok []
  | (k, v) :: ps =>
    match utf8Str k with
    | none => .error "not a UTF-8 key"
    | some s =>
      match convert v with
      | .error e => .error e
      | .ok r =>
        match convertP ps with
        | .error e => .error e
        | .ok qs => .ok ((s, r) :: qs)

end

/-- Modelled from the spec: `bencode.decode(raw, keytostr=True)`. -/
def bdecodeK (raw : List Nat) : Except String RVal :=
  match decode raw with
  | .error e => .error e
  | .ok v => convert v

mutual

/-- The declarative content of text-key conversion: the result value is the
input value with every dictionary key decoded by strict UTF-8. -/
inductive Converts : Bval → RVal → Prop where
  | bs : ∀ b, Converts (.bs b) (.bytes b)
  | int : ∀ n, Converts (.int n) (.int n)
  | list : ∀ vs rs, ConvertsL vs rs → Converts (.list vs) (.list rs)
  | dict : ∀ ps qs, ConvertsP ps qs → Converts (.dict ps) (.dict qs)

/-- `Converts` member-wise. -/
inductive ConvertsL : List Bval → List RVal → Prop where
  | nil : ConvertsL [] []
  | cons : ∀ v r vs rs, Converts v r → ConvertsL vs rs → ConvertsL (v :: vs) (r :: rs)

/-- `Converts` entry-wise, with each key decoded by strict UTF-8. -/
inductive ConvertsP : List (List Nat × Bval) → List (String × RVal) → Prop where
  | nil : ConvertsP [] []
  | cons : ∀ k s v r ps qs, utf8Str k = some s → Converts v r → ConvertsP ps qs →
      ConvertsP ((k, v) :: ps) ((s, r) :: qs)

end

/-- The freshly constructed record state of `Backbone.__init__`: the decoded
dictionary, no slots, no flags, the caller's fallback encoding. -/
def initState (qs : List (String × RVal)) (fallback : Option String) : TState :=
  { data := qs, slots := [], flags := [], counts := fun _ => 0, fallback := fallback }

/-- `Backbone.__init__` from `backbone.py`: decode the raw bytes with the
text-key mode, require a top-level dictionary, remember the fallback
encoding, and unless `lazy` is truthy run `load_fields` immediately. -/
def backboneInit (O : PyOracle) (fields : List FieldSpec) (fallback : Option String)
    (lazy : Bool) (fuel : Nat) (raw : List Nat) : Except String TState :=
  match bdecodeK raw with
  | .error e => .error e
  | .ok (RVal.dict qs) =>
    if lazy then .ok (initState qs fallback)
    else
      match load_fields O fields fuel (initState qs fallback) with
      | .error (e, _) => .error e
      | .ok st' => .ok st'
  | .ok _ => .error "expected top-level dictionary"

namespace ValidUrlList

/-- `ValidUrlList.save_value` from `validators.py`: an empty list deletes the
key, a one-element list stores the bare URL, a longer list stores a list. -/
def save_value (key : String) (value : List RVal) (data : List (String × RVal)) :
    List (String × RVal) :=
  match value with
  | [] => adelete data key
  | [u] => aset data key u
  | us => aset data key (RVal.list us)

end ValidUrlList

/-- A concrete oracle for witnesses: strict ASCII and UTF-8 codecs, decimal
formatting of integers. -/
def decOracle : String → List Nat → Option String
  | "ASCII", bs => if bs.all (fun b => b < 128) then utf8Str bs else none
  | "UTF-8", bs => utf8Str bs
  | _, _ => none

/-- A concrete `str()` for witnesses. -/
def fmtOracle : RVal → String
  | .int n => String.mk ((intToDecimal n).map Char.ofNat)
  | .str s => s
  | _ => ""

/-- The witness oracle. -/
def pyO : PyOracle := ⟨decOracle, fmtOracle⟩

/-- The state after a run: the error payload's state or the success state. -/
def resState {α : Type} : Except (String × TState) (TState × α) → TState
  | .error (_, st) => st
  | .ok (st, _) => st

/-- `d'` holds a subset of the bindings of `d`: the shape every backing
dictionary reachable by the load machinery keeps (keys are only removed). -/
def subData (d' d : List (String × RVal)) : Prop :=
  ∀ k v, alookup d' k = some v → alookup d k = some v

/-- Keys are only removed, never added or rebound. -/
def dictShrinks (dn d : List (String × RVal)) : Prop :=
  ∀ k, alookup dn k = alookup d k ∨ alookup dn k = none

/-- Ghost bound: no field's `load_from` has started more than once past the
base state. -/
def CntB (base st : TState) : Prop := ∀ n, st.counts n ≤ base.counts n + 1

/-- A field whose `load_from` has started past the base state has its slot
filled and its `loaded` flag set. -/
def Trig (base st : TState) (n : String) : Prop :=
  base.counts n < st.counts n →
    (alookup st.slots n).isSome = true ∧ alookup st.flags n = some true

/-- The pass invariant, with one field (the one currently mid-load) excused
from the trigger condition. -/
def Inv1 (base st : TState) (ex : String) : Prop :=
  CntB base st ∧ ∀ n, ¬ n = ex → Trig base st n

/-- Every declared field marked loaded has had its key removed from the
backing dictionary. -/
def KeysGone (fields : List FieldSpec) (st : TState) : Prop :=
  ∀ f ∈ fields, alookup st.flags f.name = some true → alookup st.data f.key = none

/-! ## Theorems: decimal text -/

theorem digitsLE_eq_digits : ∀ fuel n, n < fuel → digitsLE fuel n = Nat.digits 10 n := by
  intro fuel
  induction fuel with
  | zero => intro n h; omega
  | succ f ih =>
    intro n h
    rw [digitsLE]
    by_cases h0 : n = 0
    · simp [h0]
    · have hd : n / 10 < f := by
        have := Nat.div_lt_self (Nat.pos_of_ne_zero h0) (by norm_num : (1:Nat) < 10)
        omega
      rw [if_neg h0, Nat.digits_def' (by norm_num : (1:Nat) < 10) (Nat.pos_of_ne_zero h0),
        ih (n / 10) hd]

theorem natToDecimal_eq (n : Nat) :
    natToDecimal n = if n = 0 then [48] else ((Nat.digits 10 n).reverse).map (· + 48) := by
  rw [natToDecimal, digitsLE_eq_digits (n + 1) n (by omega)]

theorem natToDecimal_ne_nil (n : Nat) : natToDecimal n ≠ [] := by
  rw [natToDecimal_eq]
  by_cases h0 : n = 0
  · simp [h0]
  · simp [h0, Nat.digits_ne_nil_iff_ne_zero.mpr h0]

theorem natToDecimal_digits (n : Nat) : ∀ d ∈ natToDecimal n, 48 ≤ d ∧ d ≤ 57 := by
  rw [natToDecimal_eq]
  by_cases h0 : n = 0
  · simp [h0]
  · intro d hd
    simp only [if_neg h0, List.mem_map, List.mem_reverse] at hd
    obtain ⟨x, hx, rfl⟩ := hd
    have := Nat.digits_lt_base (by norm_num) hx
    omega

theorem natToDecimal_head (n : Nat) (h0 : n ≠ 0) {t : List Nat} :
    natToDecimal n ≠ 48 :: t := by
  rw [natToDecimal_eq, if_neg h0]
  intro he
  have h1 : ((Nat.digits 10 n).reverse.map (· + 48)).head? = some 48 := by rw [he]; rfl
  rw [List.head?_map, List.head?_reverse] at h1
  obtain ⟨d, hd, hd48⟩ := Option.map_eq_some'.mp h1
  have hd0 : d = 0 := by omega
  have hne : Nat.digits 10 n ≠ [] := Nat.digits_ne_nil_iff_ne_zero.mpr h0
  rw [List.getLast?_eq_getLast _ hne] at hd
  have := Nat.getLast_digit_ne_zero 10 h0
  simp only [Option.some.injEq] at hd
  exact this (hd ▸ hd0 ▸ rfl)

theorem digitsVal_acc (l : List Nat) : ∀ acc,
    l.foldl (fun a d => a * 10 + (d - 48)) acc =
      acc * 10 ^ l.length + l.foldl (fun a d => a * 10 + (d - 48)) 0 := by
  induction l with
  | nil => intro acc; simp
  | cons d r ih =>
    intro acc
    simp only [List.foldl_cons, List.length_cons]
    rw [ih (acc * 10 + (d - 48)), ih (0 * 10 + (d - 48))]
    ring

theorem digitsVal_lt (l : List Nat) (hd : ∀ d ∈ l, d ≤ 57) : digitsVal l < 10 ^ l.length := by
  unfold digitsVal
  induction l with
  | nil => simp
  | cons d r ih =>
    simp only [List.foldl_cons, List.length_cons]
    rw [digitsVal_acc]
    have h00 : 0 * 10 + (d - 48) = d - 48 := by ring
    rw [h00]
    have h1 : r.foldl (fun a d => a * 10 + (d - 48)) 0 < 10 ^ r.length :=
      ih (fun x hx => hd x (List.mem_cons_of_mem _ hx))
    have h2 : d - 48 ≤ 9 := by have := hd d (List.mem_cons_self _ _); omega
    calc (d - 48) * 10 ^ r.length + r.foldl (fun a d => a * 10 + (d - 48)) 0
        < (d - 48) * 10 ^ r.length + 10 ^ r.length := by omega
      _ ≤ 9 * 10 ^ r.length + 10 ^ r.length := by
          have := Nat.mul_le_mul_right (10 ^ r.length) h2; omega
      _ = 10 ^ (r.length + 1) := by ring

theorem digitsVal_natToDecimal (n : Nat) : digitsVal (natToDecimal n) = n := by
  rw [natToDecimal_eq]
  by_cases h0 : n = 0
  · simp [h0, digitsVal]
  · rw [if_neg h0]
    unfold digitsVal
    have key : ∀ l : List Nat, (l.reverse.map (· + 48)).foldl (fun a d => a * 10 + (d - 48)) 0 =
        Nat.ofDigits 10 l := by
      intro l
      induction l with
      | nil => simp
      | cons d r ih =>
        simp only [List.reverse_cons, List.map_append, List.foldl_append, ih,
          Nat.ofDigits_cons, List.map_cons, List.map_nil, List.foldl_cons, List.foldl_nil]
        have : d + 48 - 48 = d := by omega
        rw [this]
        ring
    rw [key, Nat.ofDigits_digits]

theorem digitRun_all_digits (r : List Nat) : ∀ acc, (∀ d ∈ r, isDigit d) →
    digitRun acc r = some (r.foldl (fun a d => a * 10 + (d - 48)) acc) := by
  induction r with
  | nil => intro acc _; rfl
  | cons b r ih =>
    intro acc hall
    have hb : isDigit b := hall b (List.mem_cons_self _ _)
    have hrest : ∀ d ∈ r, isDigit d := fun d hd => hall d (List.mem_cons_of_mem _ hd)
    rw [digitRun.eq_def]
    simp only [if_pos hb]
    rw [ih _ hrest]
    rfl

theorem parseDigits_natToDecimal (n : Nat) : parseDigits (natToDecimal n) = some n := by
  rcases he : natToDecimal n with _ | ⟨h, t⟩
  · exact absurd he (natToDecimal_ne_nil n)
  · have hall : ∀ d ∈ natToDecimal n, 48 ≤ d ∧ d ≤ 57 := natToDecimal_digits n
    rw [he] at hall
    have hh : isDigit h := by
      have := hall h (List.mem_cons_self _ _); simp [isDigit]; omega
    rw [parseDigits]
    simp only [hh, if_true]
    rw [digitRun_all_digits t (h - 48)
      (fun d hd => by have := hall d (List.mem_cons_of_mem _ hd); simp [isDigit]; omega)]
    have : t.foldl (fun a d => a * 10 + (d - 48)) (h - 48) = digitsVal (h :: t) := by
      unfold digitsVal
      simp
    rw [this, ← he, digitsVal_natToDecimal]

theorem dropWhile_all_false {p : Nat → Bool} {l : List Nat} (h : ∀ x ∈ l, p x = false) :
    l.dropWhile p = l := by
  cases l with
  | nil => rfl
  | cons a t => rw [List.dropWhile_cons, h a (List.mem_cons_self _ _)]; simp

theorem intToDecimal_mem (n : Int) : ∀ d ∈ intToDecimal n, d = 45 ∨ (48 ≤ d ∧ d ≤ 57) := by
  intro d hd
  rw [intToDecimal] at hd
  by_cases hneg : n < 0
  · rw [if_pos hneg] at hd
    rcases List.mem_cons.mp hd with h | h
    · left; exact h
    · right; exact natToDecimal_digits _ d h
  · rw [if_neg hneg] at hd
    right; exact natToDecimal_digits _ d hd

theorem intToDecimal_ne_nil (n : Int) : intToDecimal n ≠ [] := by
  rw [intToDecimal]
  by_cases hneg : n < 0
  · simp [hneg]
  · simp [hneg, natToDecimal_ne_nil]

theorem intToDecimal_no_ws (n : Int) : ∀ d ∈ intToDecimal n, isWS d = false := by
  intro d hd
  rcases intToDecimal_mem n d hd with h | h <;> simp [isWS] <;> omega

theorem stripEndWS_all_false {l : List Nat} (h : ∀ x ∈ l, isWS x = false) :
    stripEndWS l = l := by
  unfold stripEndWS
  rw [dropWhile_all_false (fun x hx => h x (List.mem_reverse.mp hx)), List.reverse_reverse]

theorem pyIntParse_intToDecimal (n : Int) : pyIntParse (intToDecimal n) = some n := by
  have hmem := intToDecimal_no_ws n
  have hds : (intToDecimal n).dropWhile isWS = intToDecimal n := dropWhile_all_false hmem
  have hse : stripEndWS (intToDecimal n) = intToDecimal n := stripEndWS_all_false hmem
  unfold pyIntParse
  rw [hds, hse]
  by_cases hneg : n < 0
  · rw [intToDecimal, if_pos hneg, pyIntCore, if_pos rfl, parseDigits_natToDecimal]
    have habs : -(Int.ofNat n.natAbs) = n := by simp only [Int.ofNat_eq_coe]; omega
    rw [Option.map_some', habs]
  · have he : intToDecimal n = natToDecimal n.toNat := by rw [intToDecimal, if_neg hneg]
    rw [he]
    rcases hnd : natToDecimal n.toNat with _ | ⟨h, t⟩
    · exact absurd hnd (natToDecimal_ne_nil _)
    · have hh := (natToDecimal_digits n.toNat) h (hnd ▸ List.mem_cons_self _ _)
      have h45 : h ≠ 45 := by omega
      have h43 : h ≠ 43 := by omega
      rw [pyIntCore, if_neg h45, if_neg h43, ← hnd, parseDigits_natToDecimal]
      have htn : Int.ofNat n.toNat = n := by simp only [Int.ofNat_eq_coe]; omega
      rw [Option.map_some', htn]

theorem digitRun_shape : ∀ (r : List Nat) (acc m : Nat), digitRun acc r = some m →
    ∃ ds, (∀ d ∈ ds, isDigit d) ∧ ds.length ≤ r.length ∧
      (ds.length = r.length → ds = r) ∧
      m = ds.foldl (fun a d => a * 10 + (d - 48)) acc
  | [], acc, m, hm =>
    ⟨[], by simp, by simp, by simp, by simpa [digitRun] using hm.symm⟩
  | b :: r, acc, m, hm => by
    rw [digitRun] at hm
    by_cases hb : isDigit b
    · rw [if_pos hb] at hm
      obtain ⟨ds, hds, hlen, heq, hval⟩ := digitRun_shape r _ _ hm
      refine ⟨b :: ds, ?_, by simpa using hlen, ?_, by simpa using hval⟩
      · intro d hd
        rcases List.mem_cons.mp hd with h | h
        · exact h ▸ hb
        · exact hds d h
      · intro hl
        simp only [List.length_cons, Nat.add_right_cancel_iff] at hl
        rw [heq hl]
    · rw [if_neg hb] at hm
      by_cases h95 : b = 95
      · rw [if_pos h95] at hm
        match r, hm with
        | [], hm => exact absurd hm (by simp [digitRunU])
        | b2 :: r2, hm => ?_
        rw [digitRunU] at hm
        by_cases hb2 : isDigit b2
        · rw [if_pos hb2] at hm
          obtain ⟨ds, hds, hlen, _, hval⟩ := digitRun_shape r2 _ _ hm
          refine ⟨b2 :: ds, ?_, by simp; omega, by simp; omega, by simpa using hval⟩
          intro d hd
          rcases List.mem_cons.mp hd with h | h
          · exact h ▸ hb2
          · exact hds d h
        · rw [if_neg hb2] at hm; exact absurd hm (by simp)
      · rw [if_neg h95] at hm; exact absurd hm (by simp)

theorem natToDecimal_len_le {n k : Nat} (hk : 1 ≤ k) (hn : n < 10 ^ k) :
    (natToDecimal n).length ≤ k := by
  rw [natToDecimal_eq]
  by_cases h0 : n = 0
  · simpa [h0] using hk
  · rw [if_neg h0]
    simp only [List.length_map, List.length_reverse]
    rw [Nat.digits_len 10 n (by norm_num) h0]
    have := Nat.log_lt_of_lt_pow h0 hn
    omega

theorem natToDecimal_length_pos (n : Nat) : 1 ≤ (natToDecimal n).length := by
  rcases he : natToDecimal n with _ | ⟨h, t⟩
  · exact absurd he (natToDecimal_ne_nil n)
  · simp

theorem mul_pow_add_inj {B a b v1 v2 : Nat} (_hB : 0 < B) (h1 : v1 < B) (h2 : v2 < B)
    (h : a * B + v1 = b * B + v2) : a = b ∧ v1 = v2 := by
  rcases Nat.lt_trichotomy a b with hlt | heq | hgt
  · exfalso
    have hc : a * B + v1 < b * B + v2 := by
      calc a * B + v1 < a * B + B := by omega
        _ = (a + 1) * B := by ring
        _ ≤ b * B := Nat.mul_le_mul_right B hlt
        _ ≤ b * B + v2 := Nat.le_add_right _ _
    omega
  · subst heq
    exact ⟨rfl, by omega⟩
  · exfalso
    have hc : b * B + v2 < a * B + v1 := by
      calc b * B + v2 < b * B + B := by omega
        _ = (b + 1) * B := by ring
        _ ≤ a * B := Nat.mul_le_mul_right B hgt
        _ ≤ a * B + v1 := Nat.le_add_right _ _
    omega

theorem digits_inj : ∀ (ds es : List Nat), (∀ d ∈ ds, 48 ≤ d ∧ d ≤ 57) →
    (∀ d ∈ es, 48 ≤ d ∧ d ≤ 57) → ds.length = es.length → digitsVal ds = digitsVal es →
    ds = es
  | [], [], _, _, _, _ => rfl
  | [], _ :: _, _, _, hlen, _ => by simp at hlen
  | _ :: _, [], _, _, hlen, _ => by simp at hlen
  | d :: ds, e :: es, hd, he, hlen, hval => by
    simp only [List.length_cons, Nat.add_right_cancel_iff] at hlen
    have hvd : digitsVal (d :: ds) = (d - 48) * 10 ^ ds.length + digitsVal ds := by
      unfold digitsVal
      simp only [List.foldl_cons]
      rw [digitsVal_acc]
      ring
    have hve : digitsVal (e :: es) = (e - 48) * 10 ^ es.length + digitsVal es := by
      unfold digitsVal
      simp only [List.foldl_cons]
      rw [digitsVal_acc]
      ring
    have hlt1 : digitsVal ds < 10 ^ ds.length :=
      digitsVal_lt ds (fun x hx => (hd x (List.mem_cons_of_mem _ hx)).2)
    have hlt2 : digitsVal es < 10 ^ es.length :=
      digitsVal_lt es (fun x hx => (he x (List.mem_cons_of_mem _ hx)).2)
    rw [hvd, hve, hlen] at hval
    have hP : 0 < 10 ^ es.length := Nat.pos_pow_of_pos _ (by norm_num)
    obtain ⟨hde, hvds⟩ := mul_pow_add_inj hP (hlen ▸ hlt1) hlt2 hval
    have hd48 := (hd d (List.mem_cons_self _ _)).1
    have he48 := (he e (List.mem_cons_self _ _)).1
    have hdeq : d = e := by omega
    rw [hdeq, digits_inj ds es (fun x hx => hd x (List.mem_cons_of_mem _ hx))
      (fun x hx => he x (List.mem_cons_of_mem _ hx)) hlen hvds]

theorem parseDigits_shape {r : List Nat} {m : Nat} (hp : parseDigits r = some m) :
    ∃ ds, (∀ d ∈ ds, 48 ≤ d ∧ d ≤ 57) ∧ 1 ≤ ds.length ∧ ds.length ≤ r.length ∧
      (ds.length = r.length → ds = r) ∧ m = digitsVal ds := by
  match r, hp with
  | b :: r1, hp => ?_
  rw [parseDigits] at hp
  by_cases hb : isDigit b
  · rw [if_pos hb] at hp
    obtain ⟨ds, hds, hlen, heq, hval⟩ := digitRun_shape r1 _ _ hp
    refine ⟨b :: ds, ?_, by simp, by simpa using hlen, ?_, ?_⟩
    · intro d hd
      rcases List.mem_cons.mp hd with h | h
      · have : isDigit d := h ▸ hb
        simp only [isDigit, Bool.and_eq_true, decide_eq_true_eq] at this
        exact this
      · have := hds d h
        simp only [isDigit, Bool.and_eq_true, decide_eq_true_eq] at this
        exact this
    · intro hl
      simp only [List.length_cons, Nat.add_right_cancel_iff] at hl
      rw [heq hl]
    · rw [hval]
      unfold digitsVal
      simp
  · rw [if_neg hb] at hp
    exact absurd hp (by simp)

theorem pyIntParse_canonical {s : List Nat} {n : Int} (hp : pyIntParse s = some n)
    (hlen : (intToDecimal n).length = s.length) : s = intToDecimal n := by
  unfold pyIntParse at hp
  set s1 := s.dropWhile isWS with hs1
  have hsplit : s.takeWhile isWS ++ s1 = s := List.takeWhile_append_dropWhile isWS s
  set w1 := s.takeWhile isWS with hw1
  have hs1split : (s1.reverse.dropWhile isWS).reverse ++ (s1.reverse.takeWhile isWS).reverse
      = s1 := by
    rw [← List.reverse_append, List.takeWhile_append_dropWhile, List.reverse_reverse]
  have htdef : stripEndWS s1 = (s1.reverse.dropWhile isWS).reverse := rfl
  set t := (s1.reverse.dropWhile isWS).reverse with ht
  set w2 := (s1.reverse.takeWhile isWS).reverse with hw2
  rw [htdef] at hp
  have hslen : s.length = w1.length + t.length + w2.length := by
    have h1 : w1.length + s1.length = s.length := by
      rw [← List.length_append, hsplit]
    have h2 : t.length + w2.length = s1.length := by
      rw [← List.length_append, hs1split]
    omega
  have hs_eq : s = w1 ++ (t ++ w2) := by
    rw [hs1split, hsplit]
  match t, hp, hslen, hs_eq with
  | [], hp, hslen, hs_eq => exact absurd hp (by simp [pyIntCore])
  | b :: r, hp, hslen, hs_eq => ?_
  simp only [List.length_cons] at hslen
  rw [pyIntCore] at hp
  by_cases hb45 : b = 45
  · rw [if_pos hb45] at hp
    obtain ⟨m, hpd, hmn⟩ := Option.map_eq_some'.mp hp
    rw [Int.ofNat_eq_coe] at hmn
    obtain ⟨ds, hds, hds1, hdslen, hdseq, hdsval⟩ := parseDigits_shape hpd
    have hmlt : m < 10 ^ ds.length := hdsval ▸ digitsVal_lt ds (fun d hd => (hds d hd).2)
    by_cases hm0 : m = 0
    · exfalso
      have hn0 : n = 0 := by omega
      rw [hn0] at hlen
      have h1 : (intToDecimal 0).length = 1 := by rfl
      rw [h1] at hlen
      omega
    · have hneg : n < 0 := by omega
      have habs : n.natAbs = m := by omega
      have hitd : intToDecimal n = 45 :: natToDecimal m := by
        rw [intToDecimal, if_pos hneg, habs]
      rw [hitd] at hlen ⊢
      have hndlen : (natToDecimal m).length ≤ ds.length :=
        natToDecimal_len_le hds1 hmlt
      simp only [List.length_cons] at hlen
      have hw1z : w1.length = 0 := by omega
      have hw2z : w2.length = 0 := by omega
      have hnds : (natToDecimal m).length = ds.length := by omega
      have hdr : ds.length = r.length := by omega
      have hdsr : ds = r := hdseq hdr
      have hdsnat : ds = natToDecimal m := by
        refine (digits_inj (natToDecimal m) ds (natToDecimal_digits m) hds ?_ ?_).symm
        · omega
        · rw [digitsVal_natToDecimal, hdsval]
      rw [hs_eq, List.length_eq_zero.mp hw1z, List.length_eq_zero.mp hw2z]
      simp [hb45, ← hdsr, hdsnat]
  · rw [if_neg hb45] at hp
    by_cases hb43 : b = 43
    · exfalso
      rw [if_pos hb43] at hp
      obtain ⟨m, hpd, hmn⟩ := Option.map_eq_some'.mp hp
      rw [Int.ofNat_eq_coe] at hmn
      obtain ⟨ds, hds, hds1, hdslen, _, hdsval⟩ := parseDigits_shape hpd
      have hmlt : m < 10 ^ ds.length := hdsval ▸ digitsVal_lt ds (fun d hd => (hds d hd).2)
      have hitd : intToDecimal n = natToDecimal m := by
        rw [intToDecimal, if_neg (by omega), show n.toNat = m by omega]
      rw [hitd] at hlen
      have hndlen : (natToDecimal m).length ≤ ds.length :=
        natToDecimal_len_le hds1 hmlt
      omega
    · rw [if_neg hb43] at hp
      obtain ⟨m, hpd, hmn⟩ := Option.map_eq_some'.mp hp
      rw [Int.ofNat_eq_coe] at hmn
      obtain ⟨ds, hds, hds1, hdslen, hdseq, hdsval⟩ := parseDigits_shape hpd
      simp only [List.length_cons] at hdslen hdseq
      have hmlt : m < 10 ^ ds.length := hdsval ▸ digitsVal_lt ds (fun d hd => (hds d hd).2)
      have hitd : intToDecimal n = natToDecimal m := by
        rw [intToDecimal, if_neg (by omega), show n.toNat = m by omega]
      rw [hitd] at hlen ⊢
      have hndlen : (natToDecimal m).length ≤ ds.length :=
        natToDecimal_len_le hds1 hmlt
      have hw1z : w1.length = 0 := by omega
      have hw2z : w2.length = 0 := by omega
      have hnds : (natToDecimal m).length = ds.length := by omega
      have hdr : ds.length = r.length + 1 := by omega
      have hdsr : ds = b :: r := hdseq (by simpa using hdr)
      have hdsnat : ds = natToDecimal m := by
        refine (digits_inj (natToDecimal m) ds (natToDecimal_digits m) hds ?_ ?_).symm
        · omega
        · rw [digitsVal_natToDecimal, hdsval]
      rw [hs_eq, List.length_eq_zero.mp hw1z, List.length_eq_zero.mp hw2z]
      simp [← hdsr, hdsnat]

/-- The non-canonical integer/length texts named by the specification: over the
whitespace/sign/digit alphabet, a leading zero (other than the single digit 0),
a leading plus sign, embedded whitespace, or the negative zero text. -/
def badLiteral (s : List Nat) : Prop :=
  (∀ b ∈ s, isWS b = true ∨ b = 43 ∨ b = 45 ∨ isDigit b = true) ∧
  ((∃ b ∈ s, isWS b = true) ∨ s.head? = some 43 ∨ s = [45, 48] ∨
    (∃ t, t ≠ [] ∧ (s = 48 :: t ∨ s = 45 :: 48 :: t)))

theorem natToDecimal_leading_zero {m : Nat} {t : List Nat} (h : natToDecimal m = 48 :: t) :
    m = 0 ∧ t = [] := by
  by_cases h0 : m = 0
  · subst h0
    have : natToDecimal 0 = [48] := by rfl
    rw [this] at h
    exact ⟨rfl, by injection h with _ h2; exact h2.symm⟩
  · exact absurd h (natToDecimal_head m h0)

theorem intToDecimal_not_bad (n : Int) : ¬ badLiteral (intToDecimal n) := by
  rintro ⟨_, hbad | hplus | hnegz | ⟨t, htne, hlz | hnlz⟩⟩
  · obtain ⟨b, hmem, hws⟩ := hbad
    rw [intToDecimal_no_ws n b hmem] at hws
    exact Bool.false_ne_true hws
  · rcases he : intToDecimal n with _ | ⟨h, r⟩
    · rw [he] at hplus; simp at hplus
    · rw [he] at hplus
      simp only [List.head?_cons, Option.some.injEq] at hplus
      have := intToDecimal_mem n h (he ▸ List.mem_cons_self _ _)
      omega
  · rw [intToDecimal] at hnegz
    by_cases hneg : n < 0
    · rw [if_pos hneg] at hnegz
      have h48 : natToDecimal n.natAbs = [48] := by injection hnegz
      obtain ⟨h0, _⟩ := natToDecimal_leading_zero (t := []) h48
      omega
    · rw [if_neg hneg] at hnegz
      have := natToDecimal_digits n.toNat 45 (hnegz ▸ List.mem_cons_self _ _)
      omega
  · rw [intToDecimal] at hlz
    by_cases hneg : n < 0
    · rw [if_pos hneg] at hlz
      exact absurd (List.head_eq_of_cons_eq hlz.symm) (by norm_num)
    · rw [if_neg hneg] at hlz
      obtain ⟨_, ht⟩ := natToDecimal_leading_zero hlz
      exact htne ht
  · rw [intToDecimal] at hnlz
    by_cases hneg : n < 0
    · rw [if_pos hneg] at hnlz
      have h48 : natToDecimal n.natAbs = 48 :: t := List.tail_eq_of_cons_eq hnlz
      obtain ⟨h0, _⟩ := natToDecimal_leading_zero h48
      omega
    · rw [if_neg hneg] at hnlz
      have := natToDecimal_digits n.toNat 45 (hnlz ▸ List.mem_cons_self _ _)
      omega

theorem badLiteral_parse {s : List Nat} {n : Int} (hbad : badLiteral s)
    (hp : pyIntParse s = some n) : (intToDecimal n).length ≠ s.length := by
  intro hlen
  have := pyIntParse_canonical hp hlen
  exact intToDecimal_not_bad n (this ▸ hbad)

theorem badLiteral_no_byte {s : List Nat} (hbad : badLiteral s) (c : Nat)
    (hc : 58 ≤ c) : ∀ x ∈ s, x ≠ c := by
  intro x hx he
  rcases hbad.1 x hx with h | h | h | h
  · simp only [isWS, Bool.or_eq_true, decide_eq_true_eq] at h
    omega
  · omega
  · omega
  · simp only [isDigit, Bool.and_eq_true, decide_eq_true_eq] at h
    omega

theorem findByte_first {c : Nat} : ∀ {l1 : List Nat}, (∀ x ∈ l1, x ≠ c) → ∀ l2,
    findByte c (l1 ++ c :: l2) = some l1.length
  | [], _, l2 => by simp [findByte]
  | b :: r, h, l2 => by
    rw [List.cons_append, findByte, if_neg (h b (List.mem_cons_self _ _)),
      findByte_first (fun x hx => h x (List.mem_cons_of_mem _ hx)) l2]
    rfl

theorem take_exact {α : Type} (l1 : List α) (c : α) (l2 : List α) :
    (l1 ++ c :: l2).take l1.length = l1 := by
  rw [List.take_append_of_le_length (by simp), List.take_length]

theorem drop_exact {α : Type} (l1 : List α) (c : α) (l2 : List α) :
    (l1 ++ c :: l2).drop (l1.length + 1) = l2 := by
  have h1 : l1 ++ c :: l2 = (l1 ++ [c]) ++ l2 := by simp
  have h2 : l1.length + 1 = (l1 ++ [c]).length := by simp
  rw [h1, h2, List.drop_left]

theorem badLiteral_ne_nil {s : List Nat} (hbad : badLiteral s) : s ≠ [] := by
  rintro rfl
  rcases hbad.2 with ⟨b, hb, _⟩ | h | h | ⟨t, _, h | h⟩
  · exact absurd hb (List.not_mem_nil b)
  · exact absurd h (by simp)
  · exact absurd h (by simp)
  · exact absurd h (by simp)
  · exact absurd h (by simp)

theorem decodeInt_rejects {s : List Nat} (hbad : badLiteral s) (rest : List Nat) :
    ∃ e, decodeInt (s ++ 101 :: rest) = .error e := by
  have hf := findByte_first (badLiteral_no_byte hbad 101 (by norm_num)) rest
  have ht : (s ++ 101 :: rest).take s.length = s := take_exact s 101 rest
  rcases hp : pyIntParse s with _ | n
  · exact ⟨"invalid literal for int", by simp [decodeInt, hf, ht, hp]⟩
  · have hne := badLiteral_parse hbad hp
    exact ⟨"malformed int value", by simp [decodeInt, hf, ht, hp, hne]⟩

theorem decodeBytes_rejects {b : Nat} {s' : List Nat} (hbad : badLiteral (b :: s'))
    (content : List Nat) : ∃ e, decodeBytes ((b :: s') ++ 58 :: content) = .error e := by
  have hns : ∀ x ∈ s', x ≠ 58 :=
    fun x hx => badLiteral_no_byte hbad 58 (by norm_num) x (List.mem_cons_of_mem _ hx)
  have hf := findByte_first hns content
  have ht : (s' ++ 58 :: content).take s'.length = s' := take_exact s' 58 content
  rcases hp : pyIntParse (b :: s') with _ | n
  · exact ⟨"invalid literal for int", by simp [decodeBytes, hf, ht, hp]⟩
  · have hne := badLiteral_parse hbad hp
    have hne' : (intToDecimal n).length ≠ s'.length + 1 := by
      simpa using hne
    exact ⟨"malformed data size", by simp [decodeBytes, hf, ht, hp, hne']⟩

/-- C3: on every input carrying a non-canonical integer literal (between `i`
and `e`) or a non-canonical byte-string length (before `:`), `decode` raises. -/
theorem decode_rejects_bad_literal {s : List Nat} (hbad : badLiteral s)
    (rest content : List Nat) :
    (∃ e, decode (105 :: (s ++ 101 :: rest)) = .error e) ∧
    (∃ e, decode (s ++ 58 :: content) = .error e) := by
  constructor
  · obtain ⟨e, he⟩ := decodeInt_rejects hbad rest
    refine ⟨e, ?_⟩
    have h105 : isDigit 105 = false := by decide
    simp [decode, decodeItem, h105, he]
  · rcases hs : s with _ | ⟨b, s'⟩
    · exact absurd hs (badLiteral_ne_nil hbad)
    · subst hs
      by_cases hdig : isDigit b
      · obtain ⟨e, he⟩ := decodeBytes_rejects hbad content
        refine ⟨e, ?_⟩
        rw [List.cons_append] at he ⊢
        simp [decode, decodeItem, hdig, he]
      · refine ⟨"unknown type selector", ?_⟩
        have hb : b ≠ 105 ∧ b ≠ 108 ∧ b ≠ 100 := by
          rcases hbad.1 b (List.mem_cons_self _ _) with h | h | h | h
          · simp only [isWS, Bool.or_eq_true, decide_eq_true_eq] at h
            omega
          · omega
          · omega
          · exact absurd h (by simpa using hdig)
        simp [decode, decodeItem, hdig, hb.1, hb.2.1, hb.2.2]

/-! ## Theorems: round trip -/

theorem intToDecimal_ofNat (L : Nat) : intToDecimal (Int.ofNat L) = natToDecimal L := by
  rw [intToDecimal, if_neg (by simp [Int.ofNat_eq_coe])]
  norm_num

theorem pyIntParse_natToDecimal (L : Nat) :
    pyIntParse (natToDecimal L) = some (Int.ofNat L) := by
  have := pyIntParse_intToDecimal (Int.ofNat L)
  rwa [intToDecimal_ofNat] at this

theorem natToDecimal_shape (L : Nat) :
    ∃ h t, natToDecimal L = h :: t ∧ isDigit h = true ∧ ∀ x ∈ t, 48 ≤ x ∧ x ≤ 57 := by
  rcases he : natToDecimal L with _ | ⟨h, t⟩
  · exact absurd he (natToDecimal_ne_nil L)
  · have hall := natToDecimal_digits L
    rw [he] at hall
    refine ⟨h, t, rfl, ?_, fun x hx => hall x (List.mem_cons_of_mem _ hx)⟩
    have := hall h (List.mem_cons_self _ _)
    simp only [isDigit, Bool.and_eq_true, decide_eq_true_eq]
    omega

theorem take_append_self {α : Type} (l1 l2 : List α) : (l1 ++ l2).take l1.length = l1 := by
  rw [List.take_append_of_le_length (by simp), List.take_length]

theorem decodeItem_encBytes (s : List Nat) (f : Nat) (rest : List Nat) :
    decodeItem f (encBytes s ++ rest) = .ok (.bs s, rest) := by
  obtain ⟨h, t, hnd, hdig, ht5⟩ := natToDecimal_shape s.length
  have hsh : encBytes s ++ rest = h :: (t ++ 58 :: (s ++ rest)) := by
    rw [encBytes, hnd]
    simp
  have hno58 : ∀ x ∈ t, x ≠ 58 := fun x hx => by have := ht5 x hx; omega
  have hf := findByte_first hno58 (s ++ rest)
  have htk : (t ++ 58 :: (s ++ rest)).take t.length = t := take_exact t 58 (s ++ rest)
  have hdr : (t ++ 58 :: (s ++ rest)).drop (t.length + 1) = s ++ rest :=
    drop_exact t 58 (s ++ rest)
  have hseg : h :: (t ++ 58 :: (s ++ rest)).take t.length = natToDecimal s.length := by
    rw [htk, hnd]
  have hparse : pyIntParse (h :: (t ++ 58 :: (s ++ rest)).take t.length)
      = some (Int.ofNat s.length) := by
    rw [hseg, pyIntParse_natToDecimal]
  have hlen : (intToDecimal (Int.ofNat s.length)).length = t.length + 1 := by
    rw [intToDecimal_ofNat, hnd]
    simp
  have hbound : ¬ (((s ++ rest).length : Int) < Int.ofNat s.length) := by
    simp only [Int.ofNat_eq_coe, List.length_append]
    omega
  have htoNat : (Int.ofNat s.length).toNat = s.length := rfl
  have hparse2 : pyIntParse (h :: t) = some (Int.ofNat s.length) := by
    rw [← hnd, pyIntParse_natToDecimal]
  have hbound2 : ¬ ((s.length : Int) + (rest.length : Int) < Int.ofNat s.length) := by
    simp only [Int.ofNat_eq_coe]
    omega
  rw [hsh, decodeItem.eq_def]
  simp [hdig, decodeBytes, hf, hparse, hparse2, hlen, hbound, hbound2, hdr, htoNat,
    take_append_self, List.drop_left]
  rw [if_pos (by rw [← Int.ofNat_eq_coe]; exact hlen), if_neg (by omega)]

theorem decodeItem_encInt (n : Int) (f : Nat) (rest : List Nat) :
    decodeItem f ((105 :: (intToDecimal n ++ [101])) ++ rest) = .ok (.int n, rest) := by
  have hsh : (105 :: (intToDecimal n ++ [101])) ++ rest
      = 105 :: (intToDecimal n ++ 101 :: rest) := by simp
  have hno101 : ∀ x ∈ intToDecimal n, x ≠ 101 := by
    intro x hx
    rcases intToDecimal_mem n x hx with h | h <;> omega
  have hf := findByte_first hno101 rest
  have htk : (intToDecimal n ++ 101 :: rest).take (intToDecimal n).length = intToDecimal n :=
    take_exact _ 101 rest
  have hdr : (intToDecimal n ++ 101 :: rest).drop ((intToDecimal n).length + 1) = rest :=
    drop_exact _ 101 rest
  have h105 : isDigit 105 = false := by decide
  rw [hsh, decodeItem.eq_def]
  simp [h105, decodeInt, hf, htk, pyIntParse_intToDecimal, hdr]

theorem orderedInsert_map {α β : Type} (f : α → β) (r : β → β → Prop) (r' : α → α → Prop)
    [DecidableRel r] [DecidableRel r'] (hrel : ∀ a b, r (f a) (f b) ↔ r' a b) (a : α) :
    ∀ l : List α, List.orderedInsert r (f a) (l.map f) = (List.orderedInsert r' a l).map f
  | [] => rfl
  | b :: t => by
    simp only [List.map_cons, List.orderedInsert]
    by_cases h : r' a b
    · rw [if_pos ((hrel a b).mpr h), if_pos h]
      simp
    · rw [if_neg (fun hh => h ((hrel a b).mp hh)), if_neg h, List.map_cons,
        orderedInsert_map f r r' hrel a t]

theorem insertionSort_map {α β : Type} (f : α → β) (r : β → β → Prop) (r' : α → α → Prop)
    [DecidableRel r] [DecidableRel r'] (hrel : ∀ a b, r (f a) (f b) ↔ r' a b) :
    ∀ l : List α, List.insertionSort r (l.map f) = (List.insertionSort r' l).map f
  | [] => rfl
  | a :: t => by
    simp only [List.map_cons, List.insertionSort]
    rw [insertionSort_map f r r' hrel t, orderedInsert_map f r r' hrel a]

theorem dupFree_iff {ks : List (List Nat)} : dupFree ks = true ↔ ks.Nodup := by
  induction ks with
  | nil => simp [dupFree]
  | cons k t ih =>
    simp only [dupFree, Bool.and_eq_true, Bool.not_eq_true', List.nodup_cons, ih]
    constructor
    · rintro ⟨hc, hn⟩
      refine ⟨fun hm => ?_, hn⟩
      simp at hc
      exact hc hm
    · rintro ⟨hm, hn⟩
      exact ⟨by simpa using hm, hn⟩

theorem toPyL_map (vs : List Bval) : toPyL vs = vs.map toPy := by
  induction vs with
  | nil => rfl
  | cons v t ih => rw [toPyL, ih, List.map_cons]

theorem toPyP_map (ps : List (List Nat × Bval)) :
    toPyP ps = ps.map (fun p => (PyKey.bytes p.1, toPy p.2)) := by
  induction ps with
  | nil => rfl
  | cons p t ih =>
    rcases p with ⟨k, v⟩
    rw [toPyP, ih, List.map_cons]

theorem canonP_map (ps : List (List Nat × Bval)) :
    canonP ps = ps.map (fun p => (p.1, canon p.2)) := by
  induction ps with
  | nil => rfl
  | cons p t ih =>
    rcases p with ⟨k, v⟩
    rw [canonP, ih, List.map_cons]

theorem canonL_map (vs : List Bval) : canonL vs = vs.map canon := by
  induction vs with
  | nil => rfl
  | cons v t ih => rw [canonL, ih, List.map_cons]

theorem encEntries_map (ps : List (List Nat × Bval)) :
    encEntries (toPyP ps) = ps.map (fun p => ((p.1, 0), encItem (toPy p.2))) := by
  induction ps with
  | nil => rfl
  | cons p t ih =>
    rcases p with ⟨k, v⟩
    rw [toPyP, encEntries, ih, List.map_cons]
    rfl

theorem fuelForL_eq (vs : List Bval) :
    fuelForL vs = vs.length + (vs.map fuelFor).sum := by
  induction vs with
  | nil => rfl
  | cons v t ih =>
    rw [fuelForL, ih]
    simp
    omega

theorem fuelForP_eq (ps : List (List Nat × Bval)) :
    fuelForP ps = ps.length + (ps.map (fun p => fuelFor p.2)).sum := by
  induction ps with
  | nil => rfl
  | cons p t ih =>
    rcases p with ⟨k, v⟩
    rw [fuelForP, ih]
    simp
    omega

theorem fuelForP_perm {ps qs : List (List Nat × Bval)} (h : ps.Perm qs) :
    fuelForP ps = fuelForP qs := by
  rw [fuelForP_eq, fuelForP_eq, h.length_eq, (h.map _).sum_eq]

theorem decodeList_emission : ∀ (zs : List (Bval × List Nat)),
    (∀ p ∈ zs, GoodEnc p.1 p.2) →
    ∀ f rest, fuelForL (zs.map Prod.fst) ≤ f →
    decodeList f ((zs.map Prod.snd).flatten ++ 101 :: rest)
      = .ok (canonL (zs.map Prod.fst), rest)
  | [], _, f, rest, _ => by
    simp [decodeList.eq_def, canonL]
  | (v, e) :: zs, hIH, f, rest, hfuel => by
    obtain ⟨⟨b, t, hbe, hb101⟩, _, hdec⟩ := hIH _ (List.mem_cons_self _ _)
    replace hbe : e = b :: t := hbe
    replace hdec : ∀ f rest, fuelFor v ≤ f → decodeItem f (e ++ rest) = .ok (canon v, rest) :=
      hdec
    have hfuel2 : 1 + fuelFor v + fuelForL (zs.map Prod.fst) ≤ f := by
      simpa [fuelForL] using hfuel
    obtain ⟨f', rfl⟩ : ∃ f', f = f' + 1 := ⟨f - 1, by omega⟩
    have hIH' : ∀ p ∈ zs, GoodEnc p.1 p.2 := fun p hp => hIH p (List.mem_cons_of_mem _ hp)
    have hrec := decodeList_emission zs hIH' f' rest (by omega)
    have hd1 : decodeItem f' (b :: (t ++ ((zs.map Prod.snd).flatten ++ 101 :: rest)))
        = .ok (canon v, (zs.map Prod.snd).flatten ++ 101 :: rest) := by
      have hsh2 : b :: (t ++ ((zs.map Prod.snd).flatten ++ 101 :: rest))
          = e ++ ((zs.map Prod.snd).flatten ++ 101 :: rest) := by
        rw [hbe]
        simp
      rw [hsh2]
      exact hdec f' _ (by omega)
    have hsh : (((v, e) :: zs).map Prod.snd).flatten ++ 101 :: rest
        = b :: (t ++ ((zs.map Prod.snd).flatten ++ 101 :: rest)) := by
      simp only [List.map_cons, List.flatten_cons, hbe]
      simp
    rw [hsh, decodeList.eq_def]
    simp only [if_neg hb101, hd1, hrec, List.map_cons, canonL]

theorem decodeDict_emission : ∀ (zs : List ((List Nat × Bval) × List Nat))
    (seen : List (List Nat)),
    (∀ p ∈ zs, GoodEnc p.1.2 p.2) →
    (∀ p ∈ zs, p.1.1 ∉ seen) →
    (zs.map (fun p => p.1.1)).Nodup →
    ∀ f rest, fuelForP (zs.map Prod.fst) ≤ f →
    decodeDict f ((zs.map (fun p => encBytes p.1.1 ++ p.2)).flatten ++ 101 :: rest) seen
      = .ok (canonP (zs.map Prod.fst), rest)
  | [], seen, _, _, _, f, rest, _ => by
    simp [decodeDict.eq_def, canonP]
  | ((k, v), e) :: zs, seen, hIH, hseen, hnd, f, rest, hfuel => by
    obtain ⟨⟨b, t, hbe, hb101⟩, _, hdec⟩ := hIH _ (List.mem_cons_self _ _)
    replace hbe : e = b :: t := hbe
    replace hdec : ∀ f rest, fuelFor v ≤ f → decodeItem f (e ++ rest) = .ok (canon v, rest) :=
      hdec
    obtain ⟨h, t', hnd', hdig, _⟩ := natToDecimal_shape k.length
    have hfuel2 : 1 + fuelFor v + fuelForP (zs.map Prod.fst) ≤ f := by
      simpa [fuelForP] using hfuel
    obtain ⟨f', rfl⟩ : ∃ f', f = f' + 1 := ⟨f - 1, by omega⟩
    simp only [List.map_cons, List.nodup_cons] at hnd
    have hIH' : ∀ p ∈ zs, GoodEnc p.1.2 p.2 := fun p hp => hIH p (List.mem_cons_of_mem _ hp)
    have hseen' : ∀ p ∈ zs, p.1.1 ∉ k :: seen := by
      intro p hp
      simp only [List.mem_cons]
      rintro (hh | hh)
      · exact hnd.1 (hh ▸ List.mem_map_of_mem _ hp)
      · exact hseen p (List.mem_cons_of_mem _ hp) hh
    have hrec := decodeDict_emission zs (k :: seen) hIH' hseen' hnd.2 f' rest (by omega)
    set X := (zs.map (fun p => encBytes p.1.1 ++ p.2)).flatten ++ 101 :: rest with hX
    have hd0 : decodeItem f' (encBytes k ++ (e ++ X)) = .ok (.bs k, e ++ X) :=
      decodeItem_encBytes k f' (e ++ X)
    have hd1 : decodeItem f' (e ++ X) = .ok (canon v, X) := hdec f' X (by omega)
    have hsh : ((((k, v), e) :: zs).map (fun p => encBytes p.1.1 ++ p.2)).flatten
        ++ 101 :: rest = h :: (t' ++ 58 :: (k ++ (e ++ X))) := by
      simp only [List.map_cons, List.flatten_cons, hX]
      rw [encBytes, hnd']
      simp
    have hh101 : h ≠ 101 := by
      simp only [isDigit, Bool.and_eq_true, decide_eq_true_eq] at hdig
      omega
    have hback : h :: (t' ++ 58 :: (k ++ (e ++ X))) = encBytes k ++ (e ++ X) := by
      rw [encBytes, hnd']
      simp
    rw [hsh, decodeDict.eq_def]
    simp only [if_neg hh101]
    rw [hback, hd0]
    simp only [if_neg (hseen _ (List.mem_cons_self _ _)), hd1, hrec, List.map_cons, canonP]

theorem encSeq_ok : ∀ (vs : List Bval), (∀ v ∈ vs, encItem (toPy v) = .ok (encOf v)) →
    encSeq (toPyL vs) = .ok ((vs.map encOf).flatten)
  | [], _ => rfl
  | v :: t, h => by
    rw [toPyL, encSeq, h v (List.mem_cons_self _ _),
      encSeq_ok t (fun w hw => h w (List.mem_cons_of_mem _ hw))]
    simp

theorem emitPairs_ok : ∀ (ps : List (List Nat × Bval)) (last : Option (List Nat)),
    (∀ p ∈ ps, encItem (toPy p.2) = .ok (encOf p.2)) →
    (ps.map Prod.fst).Nodup →
    (∀ p ∈ ps, some p.1 ≠ last) →
    emitPairs last (ps.map (fun p => ((p.1, 0), encItem (toPy p.2)))) =
      .ok ((ps.map (fun p => encBytes p.1 ++ encOf p.2)).flatten)
  | [], last, _, _, _ => rfl
  | (k, v) :: t, last, hok, hnd, hlast => by
    simp only [List.map_cons, List.nodup_cons] at hnd
    have hne := hlast _ (List.mem_cons_self _ _)
    have hrec := emitPairs_ok t (some k) (fun p hp => hok p (List.mem_cons_of_mem _ hp)) hnd.2
      (fun p hp he => by
        simp only [Option.some.injEq] at he
        exact hnd.1 (he ▸ List.mem_map_of_mem _ hp))
    simp only [List.map_cons, List.flatten_cons]
    rw [emitPairs.eq_def]
    simp only [if_neg hne, hok _ (List.mem_cons_self _ _), hrec]
    try simp

theorem encOf_eq {v : Bval} {e : List Nat} (h : encItem (toPy v) = .ok e) : encOf v = e := by
  rw [encOf, h]

theorem wellKeyedL_mem : ∀ {vs : List Bval}, wellKeyedL vs = true → ∀ v ∈ vs, wellKeyed v = true
  | [], _, v, hv => absurd hv (List.not_mem_nil v)
  | w :: t, h, v, hv => by
    rw [wellKeyedL, Bool.and_eq_true] at h
    rcases List.mem_cons.mp hv with hh | hh
    · exact hh ▸ h.1
    · exact wellKeyedL_mem h.2 v hh

theorem wellKeyedP_mem : ∀ {ps : List (List Nat × Bval)}, wellKeyedP ps = true →
    ∀ p ∈ ps, wellKeyed p.2 = true
  | [], _, p, hp => absurd hp (List.not_mem_nil p)
  | (k, w) :: t, h, p, hp => by
    rw [wellKeyedP, Bool.and_eq_true] at h
    rcases List.mem_cons.mp hp with hh | hh
    · exact hh ▸ h.1
    · exact wellKeyedP_mem h.2 p hh

theorem wellKeyed_dict {ps : List (List Nat × Bval)} (h : wellKeyed (.dict ps) = true) :
    (ps.map Prod.fst).Nodup ∧ wellKeyedP ps = true := by
  rw [wellKeyed, Bool.and_eq_true] at h
  exact ⟨dupFree_iff.mp h.1, h.2⟩

theorem entLe_keyLe (a b : List Nat × Bval) :
    entLe ((a.1, 0), encItem (toPy a.2)) ((b.1, 0), encItem (toPy b.2)) ↔ keyLe a b := by
  unfold entLe keyLe
  simp only [le_refl, and_true]
  constructor
  · rintro (h | h)
    · exact le_of_lt h
    · exact le_of_eq h
  · exact lt_or_eq_of_le

theorem roundtrip_item : ∀ (v : Bval), wellKeyed v = true →
    encItem (toPy v) = .ok (encOf v) ∧ GoodEnc v (encOf v)
  | .bs s, _ => by
    have henc : encItem (toPy (.bs s)) = .ok (encBytes s) := rfl
    have he : encOf (.bs s) = encBytes s := encOf_eq henc
    refine ⟨he ▸ henc, ?_, ?_, ?_⟩
    · obtain ⟨h, t, hnd, hdig, _⟩ := natToDecimal_shape s.length
      refine ⟨h, t ++ 58 :: s, ?_, ?_⟩
      · rw [he, encBytes, hnd]
        simp
      · simp only [isDigit, Bool.and_eq_true, decide_eq_true_eq] at hdig
        omega
    · rw [he, encBytes]
      simp only [fuelFor, List.length_append, List.length_cons]
      have := natToDecimal_length_pos s.length
      omega
    · intro f rest _
      rw [he]
      exact decodeItem_encBytes s f rest
  | .int n, _ => by
    have henc : encItem (toPy (.int n)) = .ok (105 :: (intToDecimal n ++ [101])) := rfl
    have he : encOf (.int n) = 105 :: (intToDecimal n ++ [101]) := encOf_eq henc
    refine ⟨he ▸ henc, ⟨105, _, by rw [he], by norm_num⟩, ?_, ?_⟩
    · rw [he]
      simp [fuelFor]
    · intro f rest _
      rw [he]
      exact decodeItem_encInt n f rest
  | .list vs, hv => by
    have hvL : wellKeyedL vs = true := by rwa [wellKeyed] at hv
    have hmem : ∀ w ∈ vs, encItem (toPy w) = .ok (encOf w) ∧ GoodEnc w (encOf w) :=
      fun w hw => roundtrip_item w (wellKeyedL_mem hvL w hw)
    have hseq : encSeq (toPyL vs) = .ok ((vs.map encOf).flatten) :=
      encSeq_ok vs (fun w hw => (hmem w hw).1)
    have henc : encItem (toPy (.list vs))
        = .ok (108 :: ((vs.map encOf).flatten ++ [101])) := by
      rw [toPy, encItem, hseq]
    have he : encOf (.list vs) = 108 :: ((vs.map encOf).flatten ++ [101]) := encOf_eq henc
    have hlensum : fuelForL vs ≤ ((vs.map encOf).map List.length).sum := by
      rw [fuelForL_eq]
      have h1 : (vs.map (fun w => 1 + fuelFor w)).sum ≤ (vs.map (fun w => (encOf w).length)).sum :=
        List.sum_le_sum (fun w hw => (hmem w hw).2.2.1)
      have h2 : (vs.map (fun w => 1 + fuelFor w)).sum = vs.length + (vs.map fuelFor).sum := by
        induction vs with
        | nil => simp
        | cons a t ih => simp [ih]; omega
      rw [List.map_map, ← h2]
      simpa [Function.comp] using h1
    refine ⟨he ▸ henc, ⟨108, _, by rw [he], by norm_num⟩, ?_, ?_⟩
    · rw [he]
      simp only [fuelFor, List.length_cons, List.length_append, List.length_flatten]
      omega
    · intro f rest hf
      rw [fuelFor] at hf
      obtain ⟨f', rfl⟩ : ∃ f', f = f' + 1 := ⟨f - 1, by omega⟩
      have hsh : encOf (.list vs) ++ rest
          = 108 :: ((vs.map encOf).flatten ++ 101 :: rest) := by
        rw [he]
        simp
      have hfst : (vs.map (fun w => (w, encOf w))).map Prod.fst = vs := by
        have hcomp : (Prod.fst ∘ fun w : Bval => (w, encOf w)) = fun w : Bval => w := by
          funext w
          rfl
        rw [List.map_map, hcomp]
        exact List.map_id _
      have hsnd : (vs.map (fun w => (w, encOf w))).map Prod.snd = vs.map encOf := by
        rw [List.map_map]
        rfl
      have hzs : decodeList f' ((vs.map encOf).flatten ++ 101 :: rest)
          = .ok (canonL vs, rest) := by
        have hap := decodeList_emission (vs.map (fun w => (w, encOf w)))
          (by
            intro p hp
            obtain ⟨w, hw, rfl⟩ := List.mem_map.mp hp
            exact (hmem w hw).2)
          f' rest
          (by
            rw [hfst]
            omega)
        rw [hfst, hsnd] at hap
        exact hap
      rw [hsh, decodeItem.eq_def]
      have h108 : isDigit 108 = false := by decide
      simp [h108, hzs, canon]
  | .dict ps, hv => by
    obtain ⟨hnd, hvP⟩ := wellKeyed_dict hv
    have hmem : ∀ p ∈ ps, encItem (toPy p.2) = .ok (encOf p.2) ∧ GoodEnc p.2 (encOf p.2) := by
      intro p hp
      rcases p with ⟨k, w⟩
      exact roundtrip_item w (wellKeyedP_mem hvP _ hp)
    have hperm : (List.insertionSort keyLe ps).Perm ps := List.perm_insertionSort keyLe ps
    have hndS : ((List.insertionSort keyLe ps).map Prod.fst).Nodup :=
      ((hperm.map Prod.fst).nodup_iff).mpr hnd
    have hmemS : ∀ p ∈ List.insertionSort keyLe ps,
        encItem (toPy p.2) = .ok (encOf p.2) ∧ GoodEnc p.2 (encOf p.2) :=
      fun p hp => hmem p (hperm.subset hp)
    have hsort : List.insertionSort entLe (encEntries (toPyP ps))
        = (List.insertionSort keyLe ps).map (fun p => ((p.1, 0), encItem (toPy p.2))) := by
      rw [encEntries_map]
      exact insertionSort_map _ entLe keyLe entLe_keyLe ps
    have hemit : emitPairs none
        ((List.insertionSort keyLe ps).map (fun p => ((p.1, 0), encItem (toPy p.2))))
        = .ok (((List.insertionSort keyLe ps).map
            (fun p => encBytes p.1 ++ encOf p.2)).flatten) :=
      emitPairs_ok _ none (fun p hp => (hmemS p hp).1) hndS (fun p _ => by simp)
    have henc : encItem (toPy (.dict ps)) = .ok (100 :: ((((List.insertionSort keyLe ps).map
        (fun p => encBytes p.1 ++ encOf p.2)).flatten) ++ [101])) := by
      rw [toPy, encItem, hsort, hemit]
    have he := encOf_eq henc
    have hfuelS : fuelForP (List.insertionSort keyLe ps) = fuelForP ps := fuelForP_perm hperm
    have hlensum : fuelForP (List.insertionSort keyLe ps) ≤
        (((List.insertionSort keyLe ps).map
          (fun p => encBytes p.1 ++ encOf p.2)).map List.length).sum := by
      rw [fuelForP_eq, List.map_map]
      have h1 : ((List.insertionSort keyLe ps).map (fun p => 1 + fuelFor p.2)).sum ≤
          ((List.insertionSort keyLe ps).map
            (fun p => (encBytes p.1 ++ encOf p.2).length)).sum := by
        refine List.sum_le_sum (fun p hp => ?_)
        have hg := (hmemS p hp).2.2.1
        simp only [List.length_append]
        omega
      have h2 : ((List.insertionSort keyLe ps).map (fun p => 1 + fuelFor p.2)).sum =
          (List.insertionSort keyLe ps).length +
            ((List.insertionSort keyLe ps).map (fun p => fuelFor p.2)).sum := by
        generalize List.insertionSort keyLe ps = l
        induction l with
        | nil => simp
        | cons a t ih => simp [ih]; omega
      rw [← h2]
      exact h1
    refine ⟨he ▸ henc, ⟨100, _, by rw [he], by norm_num⟩, ?_, ?_⟩
    · rw [he]
      simp only [fuelFor, List.length_cons, List.length_append, List.length_flatten]
      omega
    · intro f rest hf
      rw [fuelFor] at hf
      obtain ⟨f', rfl⟩ : ∃ f', f = f' + 1 := ⟨f - 1, by omega⟩
      have hsh : encOf (.dict ps) ++ rest
          = 100 :: ((((List.insertionSort keyLe ps).map
              (fun p => encBytes p.1 ++ encOf p.2)).flatten) ++ 101 :: rest) := by
        rw [he]
        simp
      have hfst : ((List.insertionSort keyLe ps).map (fun p => (p, encOf p.2))).map Prod.fst
          = List.insertionSort keyLe ps := by
        have hcomp : (Prod.fst ∘ fun p : List Nat × Bval => (p, encOf p.2))
            = fun p : List Nat × Bval => p := by
          funext p
          rfl
        rw [List.map_map, hcomp]
        exact List.map_id _
      have hkeys : ((List.insertionSort keyLe ps).map (fun p => (p, encOf p.2))).map
          (fun p => p.1.1) = (List.insertionSort keyLe ps).map Prod.fst := by
        rw [List.map_map]
        rfl
      have hemitl : ((List.insertionSort keyLe ps).map (fun p => (p, encOf p.2))).map
          (fun p => encBytes p.1.1 ++ p.2)
          = (List.insertionSort keyLe ps).map (fun p => encBytes p.1 ++ encOf p.2) := by
        rw [List.map_map]
        rfl
      have hzs : decodeDict f' ((((List.insertionSort keyLe ps).map
          (fun p => encBytes p.1 ++ encOf p.2)).flatten) ++ 101 :: rest) []
          = .ok (canonP (List.insertionSort keyLe ps), rest) := by
        have hap := decodeDict_emission
          ((List.insertionSort keyLe ps).map (fun p => (p, encOf p.2))) []
          (by
            intro p hp
            obtain ⟨q, hq, rfl⟩ := List.mem_map.mp hp
            exact (hmemS q hq).2)
          (by simp)
          (by
            rw [hkeys]
            exact hndS)
          f' rest
          (by
            rw [hfst, hfuelS]
            omega)
        rw [hfst, hemitl] at hap
        exact hap
      have hcanon : Bval.dict (canonP (List.insertionSort keyLe ps)) = canon (.dict ps) := by
        rw [canon, canonP_map, canonP_map, insertionSort_map (fun p => (p.1, canon p.2))
          keyLe keyLe (fun a b => Iff.rfl) ps]
      rw [hsh, decodeItem.eq_def]
      have h100 : isDigit 100 = false := by decide
      simp [h100, hzs, hcanon]
  termination_by v => sizeOf v
  decreasing_by
  · have h1 := List.sizeOf_lt_of_mem hw
    simp_wf
    omega
  · have h1 := List.sizeOf_lt_of_mem hp
    rw [Prod.mk.sizeOf_spec] at h1
    simp_wf
    omega

theorem lookupA_canonP : ∀ (ps : List (List Nat × Bval)) (k : List Nat),
    lookupA k (canonP ps) = (lookupA k ps).map canon
  | [], _ => rfl
  | (k', v) :: t, k => by
    rw [canonP, lookupA, lookupA]
    by_cases h : k' = k
    · simp [h]
    · simp [h, lookupA_canonP t k]

theorem lookupA_mem : ∀ {ps : List (List Nat × Bval)} {k : List Nat} {v : Bval},
    lookupA k ps = some v → (k, v) ∈ ps
  | [], k, v, h => by simp [lookupA] at h
  | (k', w) :: t, k, v, h => by
    rw [lookupA] at h
    by_cases he : k' = k
    · rw [if_pos he] at h
      injection h with h
      exact he ▸ h ▸ List.mem_cons_self _ _
    · rw [if_neg he] at h
      exact List.mem_cons_of_mem _ (lookupA_mem h)

theorem map_fst_canonP (ps : List (List Nat × Bval)) :
    (canonP ps).map Prod.fst = ps.map Prod.fst := by
  rw [canonP_map, List.map_map]
  congr 1

theorem lookupA_perm {ps qs : List (List Nat × Bval)} (hperm : ps.Perm qs)
    (hnd : (ps.map Prod.fst).Nodup) (k : List Nat) : lookupA k ps = lookupA k qs := by
  induction hperm with
  | nil => rfl
  | cons p hp ih =>
    rcases p with ⟨k', v⟩
    rw [lookupA, lookupA]
    by_cases h : k' = k
    · simp [h]
    · simp only [if_neg h]
      exact ih (List.nodup_cons.mp (by simpa using hnd)).2
  | swap x y l =>
    rcases x with ⟨kx, vx⟩
    rcases y with ⟨ky, vy⟩
    simp only [List.map_cons, List.nodup_cons, List.mem_cons] at hnd
    have hkk : ky ≠ kx := fun hh => hnd.1 (Or.inl hh)
    rw [lookupA, lookupA, lookupA, lookupA]
    by_cases hky : ky = k
    · have hkx : ¬ kx = k := fun hh => hkk (hky.trans hh.symm)
      simp [hky, hkx]
    · simp [hky]
  | trans h1 _ ih1 ih2 =>
    rw [ih1 hnd, ih2 (((h1.map Prod.fst).nodup_iff).mp hnd)]

theorem forall2_canon (ws : List Bval) (h : ∀ w ∈ ws, PyEqv (canon w) w) :
    List.Forall₂ PyEqv (ws.map canon) ws := by
  induction ws with
  | nil => exact .nil
  | cons w t ih =>
    exact .cons (h w (List.mem_cons_self _ _)) (ih (fun x hx => h x (List.mem_cons_of_mem _ hx)))

theorem pyEqv_canon : ∀ (v : Bval), wellKeyed v = true → PyEqv (canon v) v
  | .bs s, _ => by
    rw [canon]
    exact .bs s
  | .int n, _ => by
    rw [canon]
    exact .int n
  | .list vs, hv => by
    have hvL : wellKeyedL vs = true := by rwa [wellKeyed] at hv
    have hmem : ∀ w ∈ vs, PyEqv (canon w) w :=
      fun w hw => pyEqv_canon w (wellKeyedL_mem hvL w hw)
    rw [canon, canonL_map]
    exact .list (forall2_canon vs hmem)
  | .dict ps, hv => by
    obtain ⟨hnd, hvP⟩ := wellKeyed_dict hv
    have hndC : ((canonP ps).map Prod.fst).Nodup := by
      rwa [map_fst_canonP]
    have hperm : (List.insertionSort keyLe (canonP ps)).Perm (canonP ps) :=
      List.perm_insertionSort keyLe (canonP ps)
    have hlook : ∀ k, lookupA k (List.insertionSort keyLe (canonP ps))
        = (lookupA k ps).map canon := by
      intro k
      rw [lookupA_perm hperm.symm hndC k |>.symm, lookupA_canonP]
    rw [canon]
    refine .dict ?_ ?_ ?_
    · rw [hperm.length_eq, canonP_map, List.length_map]
    · intro k hk
      rw [hlook] at hk
      rcases hup : lookupA k ps with _ | u
      · rw [hup] at hk
        simp at hk
      · simp
    · intro k v w hv' hw'
      rw [hlook, hw'] at hv'
      simp only [Option.map_some', Option.some.injEq] at hv'
      have hwmem : (k, w) ∈ ps := lookupA_mem hw'
      have := pyEqv_canon w (wellKeyedP_mem hvP (k, w) hwmem)
      exact hv' ▸ this
  termination_by v => sizeOf v
  decreasing_by
  · have h1 := List.sizeOf_lt_of_mem hw
    simp_wf
    omega
  · have h1 := List.sizeOf_lt_of_mem hwmem
    rw [Prod.mk.sizeOf_spec] at h1
    simp_wf
    omega

/-- C1: round trip. For every decoded value whose dictionaries bind pairwise
distinct keys, encoding succeeds, decoding the encoding succeeds, and the
result equals the original value under Python equality (dictionaries compare
as unordered mappings). -/
theorem decode_encode_roundtrip (v : Bval) (hv : wellKeyed v = true) :
    ∃ bs w, encode (toPy v) = .ok bs ∧ decode bs = .ok w ∧ PyEqv w v := by
  obtain ⟨henc, ⟨b, t, hbt, _⟩, hlen, hdec⟩ := roundtrip_item v hv
  refine ⟨encOf v, canon v, henc, ?_, pyEqv_canon v hv⟩
  rw [decode, if_neg (by rw [hbt]; simp)]
  have hd := hdec (encOf v).length [] (by omega)
  rw [List.append_nil] at hd
  rw [hd]
  simp

theorem encEntries_eq : ∀ (es : List (PyKey × PyVal)),
    encEntries es = es.map (fun p => (projKey p.1, encItem p.2))
  | [] => rfl
  | (k, v) :: t => by
    rw [encEntries, encEntries_eq t, List.map_cons]

theorem encEntries_keys (es : List (PyKey × PyVal)) :
    (encEntries es).map (fun q => q.1.1) = es.map (fun p => (projKey p.1).1) := by
  rw [encEntries_eq, List.map_map]
  congr 1

theorem sort_keys_perm (es : List (PyKey × PyVal)) :
    ((List.insertionSort entLe (encEntries es)).map (fun q => q.1.1)).Perm
      (es.map (fun p => (projKey p.1).1)) := by
  have h1 := (List.perm_insertionSort entLe (encEntries es)).map (fun q => q.1.1)
  rwa [encEntries_keys] at h1

theorem sort_pairwise_lt {es : List (PyKey × PyVal)}
    (hnd : (es.map (fun p => (projKey p.1).1)).Nodup) :
    (List.insertionSort entLe (encEntries es)).Pairwise (fun a b => a.1.1 < b.1.1) := by
  have hsorted : (List.insertionSort entLe (encEntries es)).Pairwise entLe :=
    List.sorted_insertionSort entLe (encEntries es)
  have hndS : ((List.insertionSort entLe (encEntries es)).map (fun q => q.1.1)).Nodup :=
    ((sort_keys_perm es).nodup_iff).mpr hnd
  have hne : (List.insertionSort entLe (encEntries es)).Pairwise
      (fun a b => a.1.1 ≠ b.1.1) := List.pairwise_map.mp hndS
  refine (hsorted.and hne).imp ?_
  rintro a b ⟨hle, hne2⟩
  rcases hle with h | ⟨h, _⟩
  · exact h
  · exact absurd h hne2

/-- C4: for every dictionary whose keys project to pairwise distinct byte
strings, the encoder emits its entries in strictly ascending byte-lexicographic
order of the projected keys: the sorted entry list the dictionary branch of
`encItem` iterates over has strictly increasing keys and holds exactly the
input projections, and the encoding does not depend on insertion order. -/
theorem encode_dict_sorted (entries : List (PyKey × PyVal))
    (hnd : (entries.map (fun p => (projKey p.1).1)).Nodup) :
    ((List.insertionSort entLe (encEntries entries)).map (fun q => q.1.1)).Pairwise (· < ·) ∧
    ((List.insertionSort entLe (encEntries entries)).map (fun q => q.1.1)).Perm
      (entries.map (fun p => (projKey p.1).1)) ∧
    ∀ entries' : List (PyKey × PyVal), entries'.Perm entries →
      encItem (.dict entries') = encItem (.dict entries) := by
  refine ⟨List.pairwise_map.mpr (sort_pairwise_lt hnd), sort_keys_perm entries, ?_⟩
  intro entries' hperm
  have hnd' : (entries'.map (fun p => (projKey p.1).1)).Nodup :=
    ((hperm.map (fun p => (projKey p.1).1)).nodup_iff).mpr hnd
  haveI : IsAntisymm ((List Nat × Nat) × Except String (List Nat))
      (fun a b => a.1.1 < b.1.1) := ⟨fun a b h1 h2 => absurd h1 (lt_asymm h2)⟩
  have hentperm : (List.insertionSort entLe (encEntries entries')).Perm
      (List.insertionSort entLe (encEntries entries)) := by
    refine ((List.perm_insertionSort entLe (encEntries entries')).trans ?_).trans
      (List.perm_insertionSort entLe (encEntries entries)).symm
    rw [encEntries_eq, encEntries_eq]
    exact hperm.map _
  have heq : List.insertionSort entLe (encEntries entries')
      = List.insertionSort entLe (encEntries entries) :=
    List.eq_of_perm_of_sorted hentperm (sort_pairwise_lt hnd') (sort_pairwise_lt hnd)
  rw [encItem, encItem, heq]

theorem emitPairs_hit : ∀ (l : List ((List Nat × Nat) × Except String (List Nat)))
    (k0 : List Nat), (∀ q ∈ l, ∃ e, q.2 = .ok e) →
    (k0 :: l.map (fun q => q.1.1)).Pairwise (· ≤ ·) →
    k0 ∈ l.map (fun q => q.1.1) →
    emitPairs (some k0) l = .error "duplicate key"
  | [], k0, _, _, hmem => absurd hmem (by simp)
  | q :: t, k0, hok, hpw, hmem => by
    by_cases hq : q.1.1 = k0
    · rw [emitPairs.eq_def]
      have : (some q.1.1 = some k0) = True := by simp [hq]
      rcases q with ⟨⟨qk, qt⟩, qr⟩
      simp only at hq
      simp [hq]
    · rw [List.map_cons] at hmem
      rcases List.mem_cons.mp hmem with hh | hh
      · exact absurd hh.symm hq
      · have hk0q : k0 ≤ q.1.1 := by
          have := (List.pairwise_cons.mp hpw).1
          exact this q.1.1 (by simp)
        have hqk0 : q.1.1 ≤ k0 := by
          have hpw2 := (List.pairwise_cons.mp (List.pairwise_cons.mp hpw).2)
          exact hpw2.1 k0 hh
        exact absurd (le_antisymm hqk0 hk0q) hq

theorem emitPairs_dup : ∀ (l : List ((List Nat × Nat) × Except String (List Nat)))
    (last : Option (List Nat)), (∀ q ∈ l, ∃ e, q.2 = .ok e) →
    (l.map (fun q => q.1.1)).Pairwise (· ≤ ·) →
    ¬ (l.map (fun q => q.1.1)).Nodup →
    emitPairs last l = .error "duplicate key"
  | [], _, _, _, hnd => absurd List.nodup_nil hnd
  | q :: t, last, hok, hpw, hnd => by
    rw [emitPairs.eq_def]
    rcases q with ⟨⟨qk, qt⟩, qr⟩
    by_cases hlast : some qk = last
    · simp [hlast]
    · obtain ⟨e, he⟩ := hok _ (List.mem_cons_self _ _)
      simp only at he
      simp only [hlast, if_false, he]
      by_cases hmem : qk ∈ t.map (fun q => q.1.1)
      · have := emitPairs_hit t qk (fun p hp => hok p (List.mem_cons_of_mem _ hp))
          (by simpa using hpw) hmem
        simp [this]
      · have hndt : ¬ (t.map (fun q => q.1.1)).Nodup := by
          intro hh
          apply hnd
          rw [List.map_cons]
          refine List.Pairwise.cons (fun a ha hEq => hmem ?_) hh
          have h2 : qk = a := hEq
          rw [h2]
          exact ha
        have := emitPairs_dup t (some qk) (fun p hp => hok p (List.mem_cons_of_mem _ hp))
          (List.pairwise_cons.mp (by simpa using hpw)).2 hndt
        simp [this]

theorem entLe_fst_le {a b : (List Nat × Nat) × Except String (List Nat)}
    (h : entLe a b) : a.1.1 ≤ b.1.1 := by
  rcases h with h | ⟨h, _⟩
  · exact le_of_lt h
  · exact le_of_eq h

/-- C5: duplicate keys are always rejected: decoding the byte string
`d3:cowi0e3:cowi0ee`, which repeats the key `cow`, fails with the error
`duplicate key`, and encoding any dictionary two of whose keys project to the
same byte string (all entry payloads being encodable) fails with the same
duplicate-key error. -/
theorem duplicate_keys_rejected (entries : List (PyKey × PyVal))
    (hdup : ¬ (entries.map (fun p => (projKey p.1).1)).Nodup)
    (hok : ∀ p ∈ entries, ∃ e, encItem p.2 = Except.ok e) :
    decode (bstr "d3:cowi0e3:cowi0ee") = .error "duplicate key" ∧
    encItem (.dict entries) = .error "duplicate key" := by
  refine ⟨by rfl, ?_⟩
  have hokS : ∀ q ∈ List.insertionSort entLe (encEntries entries),
      ∃ e, q.2 = Except.ok e := by
    intro q hq
    have hq2 : q ∈ encEntries entries :=
      (List.perm_insertionSort entLe (encEntries entries)).mem_iff.mp hq
    rw [encEntries_eq] at hq2
    obtain ⟨p, hp, hpe⟩ := List.mem_map.mp hq2
    obtain ⟨e, he⟩ := hok p hp
    exact ⟨e, by rw [← hpe]; exact he⟩
  have hpwS : ((List.insertionSort entLe (encEntries entries)).map
      (fun q => q.1.1)).Pairwise (· ≤ ·) :=
    List.pairwise_map.mpr ((List.sorted_insertionSort entLe
      (encEntries entries)).imp entLe_fst_le)
  have hndS : ¬ ((List.insertionSort entLe (encEntries entries)).map
      (fun q => q.1.1)).Nodup := by
    intro hh
    exact hdup ((sort_keys_perm entries).nodup_iff.mp hh)
  have hkey := emitPairs_dup (List.insertionSort entLe (encEntries entries))
    none hokS hpwS hndS
  rw [encItem]
  simp [hkey]

theorem duplicate_keys_rejected_witness :
    decode (bstr "d3:cowi0e3:cowi0ee") = .error "duplicate key" ∧
    encItem (.dict [(PyKey.str "x", PyVal.int 1), (PyKey.bytes [120], PyVal.int 2)])
      = .error "duplicate key" :=
  duplicate_keys_rejected
    [(PyKey.str "x", PyVal.int 1), (PyKey.bytes [120], PyVal.int 2)]
    (by decide)
    (by
      intro p hp
      rcases List.mem_cons.mp hp with h | hp2
      · exact ⟨[105, 49, 101], by rw [h]; rfl⟩
      rcases List.mem_cons.mp hp2 with h | h
      · exact ⟨[105, 50, 101], by rw [h]; rfl⟩
      · exact absurd h (List.not_mem_nil p))

theorem decode_rejects_bad_literal_witness :
    badLiteral [48, 51] ∧
    ((∃ e, decode (105 :: ([48, 51] ++ 101 :: [])) = .error e) ∧
     (∃ e, decode ([48, 51] ++ 58 :: []) = .error e)) :=
  ⟨⟨by decide, Or.inr (Or.inr (Or.inr ⟨[51], by decide, Or.inl rfl⟩))⟩,
   decode_rejects_bad_literal
     ⟨by decide, Or.inr (Or.inr (Or.inr ⟨[51], by decide, Or.inl rfl⟩))⟩ [] []⟩

theorem decode_encode_roundtrip_witness :
    wellKeyed (Bval.dict [([120], Bval.int 1)]) = true ∧
    ∃ bs w, encode (toPy (Bval.dict [([120], Bval.int 1)])) = .ok bs ∧
      decode bs = .ok w ∧ PyEqv w (Bval.dict [([120], Bval.int 1)]) :=
  ⟨by rfl, decode_encode_roundtrip (Bval.dict [([120], Bval.int 1)]) (by rfl)⟩

theorem encode_dict_sorted_witness :
    ((List.insertionSort entLe (encEntries
        [(PyKey.str "b", PyVal.int 1), (PyKey.str "a", PyVal.int 2)])).map
      (fun q => q.1.1)).Pairwise (· < ·) ∧
    ((List.insertionSort entLe (encEntries
        [(PyKey.str "b", PyVal.int 1), (PyKey.str "a", PyVal.int 2)])).map
      (fun q => q.1.1)).Perm
      (([(PyKey.str "b", PyVal.int 1), (PyKey.str "a", PyVal.int 2)]).map
        (fun p => (projKey p.1).1)) ∧
    ∀ entries' : List (PyKey × PyVal),
      entries'.Perm [(PyKey.str "b", PyVal.int 1), (PyKey.str "a", PyVal.int 2)] →
      encItem (.dict entries') = encItem (.dict
        [(PyKey.str "b", PyVal.int 1), (PyKey.str "a", PyVal.int 2)]) :=
  encode_dict_sorted [(PyKey.str "b", PyVal.int 1), (PyKey.str "a", PyVal.int 2)]
    (by decide)

/-! ## Theorems: the torrent field layer -/

/-- C9: saving a URL-list field collapses by length: an empty list deletes
the field's key from the backing dictionary, a one-element list stores the
single URL as a bare value, and a list of two or more elements stores a list
value. -/
theorem url_list_save_collapse (key : String) (u v : RVal) (us : List RVal)
    (data : List (String × RVal)) :
    ValidUrlList.save_value key [] data = adelete data key ∧
    ValidUrlList.save_value key [u] data = aset data key u ∧
    ValidUrlList.save_value key (u :: v :: us) data =
      aset data key (RVal.list (u :: v :: us)) :=
  ⟨rfl, rfl, rfl⟩

mutual

theorem convert_ok_converts : ∀ (v : Bval) (r : RVal), convert v = .ok r → Converts v r
  | .bs b, r, h => by
    have h2 : Except.ok (RVal.bytes b) = Except.ok r := h
    injection h2 with h2
    exact h2 ▸ Converts.bs b
  | .int n, r, h => by
    have h2 : Except.ok (RVal.int n) = Except.ok r := h
    injection h2 with h2
    exact h2 ▸ Converts.int n
  | .list vs, r, h => by
    have h2 : (match convertL vs with
      | Except.error e => Except.error e
      | Except.ok rs => Except.ok (RVal.list rs)) = Except.ok r := h
    rcases hL : convertL vs with e | rs <;> rw [hL] at h2
    · exact absurd h2 (by simp)
    · injection h2 with h2
      exact h2 ▸ Converts.list vs rs (convertL_ok_converts vs rs hL)
  | .dict ps, r, h => by
    have h2 : (match convertP ps with
      | Except.error e => Except.error e
      | Except.ok qs => Except.ok (RVal.dict qs)) = Except.ok r := h
    rcases hP : convertP ps with e | qs <;> rw [hP] at h2
    · exact absurd h2 (by simp)
    · injection h2 with h2
      exact h2 ▸ Converts.dict ps qs (convertP_ok_converts ps qs hP)

theorem convertL_ok_converts : ∀ (vs : List Bval) (rs : List RVal),
    convertL vs = .ok rs → ConvertsL vs rs
  | [], rs, h => by
    have h2 : Except.ok ([] : List RVal) = Except.ok rs := h
    injection h2 with h2
    exact h2 ▸ ConvertsL.nil
  | v :: vs, rs, h => by
    have h2 : (match convert v with
      | Except.error e => Except.error e
      | Except.ok r =>
        match convertL vs with
        | Except.error e => Except.error e
        | Except.ok rs => Except.ok (r :: rs)) = Except.ok rs := h
    rcases hv : convert v with e | r <;> rw [hv] at h2
    · exact absurd h2 (by simp)
    · rcases hvs : convertL vs with e | rs2 <;> rw [hvs] at h2
      · exact absurd h2 (by simp)
      · injection h2 with h2
        exact h2 ▸ ConvertsL.cons v r vs rs2
          (convert_ok_converts v r hv) (convertL_ok_converts vs rs2 hvs)

theorem convertP_ok_converts : ∀ (ps : List (List Nat × Bval)) (qs : List (String × RVal)),
    convertP ps = .ok qs → ConvertsP ps qs
  | [], qs, h => by
    have h2 : Except.ok ([] : List (String × RVal)) = Except.ok qs := h
    injection h2 with h2
    exact h2 ▸ ConvertsP.nil
  | (k, v) :: ps, qs, h => by
    have h2 : (match utf8Str k with
      | none => Except.error "not a UTF-8 key"
      | some sk =>
        match convert v with
        | Except.error e => Except.error e
        | Except.ok r =>
          match convertP ps with
          | Except.error e => Except.error e
          | Except.ok qs => Except.ok ((sk, r) :: qs)) = Except.ok qs := h
    rcases hk : utf8Str k with _ | sk <;> rw [hk] at h2
    · exact absurd h2 (by simp)
    · rcases hv : convert v with e | r <;> rw [hv] at h2
      · exact absurd h2 (by simp)
      · rcases hps : convertP ps with e | qs2 <;> rw [hps] at h2
        · exact absurd h2 (by simp)
        · injection h2 with h2
          exact h2 ▸ ConvertsP.cons k sk v r ps qs2 hk
            (convert_ok_converts v r hv) (convertP_ok_converts ps qs2 hps)

end

mutual

theorem convert_error_key : ∀ (v : Bval) (e : String),
    convert v = .error e → e = "not a UTF-8 key"
  | .bs b, e, h => absurd (show Except.ok (RVal.bytes b) = Except.error e from h) (by simp)
  | .int n, e, h => absurd (show Except.ok (RVal.int n) = Except.error e from h) (by simp)
  | .list vs, e, h => by
    have h2 : (match convertL vs with
      | Except.error e => Except.error e
      | Except.ok rs => Except.ok (RVal.list rs)) = Except.error e := h
    rcases hL : convertL vs with e2 | rs <;> rw [hL] at h2
    · injection h2 with h2
      exact h2 ▸ convertL_error_key vs e2 hL
    · exact absurd h2 (by simp)
  | .dict ps, e, h => by
    have h2 : (match convertP ps with
      | Except.error e => Except.error e
      | Except.ok qs => Except.ok (RVal.dict qs)) = Except.error e := h
    rcases hP : convertP ps with e2 | qs <;> rw [hP] at h2
    · injection h2 with h2
      exact h2 ▸ convertP_error_key ps e2 hP
    · exact absurd h2 (by simp)

theorem convertL_error_key : ∀ (vs : List Bval) (e : String),
    convertL vs = .error e → e = "not a UTF-8 key"
  | [], e, h => absurd (show Except.ok ([] : List RVal) = Except.error e from h) (by simp)
  | v :: vs, e, h => by
    have h2 : (match convert v with
      | Except.error e => Except.error e
      | Except.ok r =>
        match convertL vs with
        | Except.error e => Except.error e
        | Except.ok rs => Except.ok (r :: rs)) = Except.error e := h
    rcases hv : convert v with e2 | r <;> rw [hv] at h2
    · injection h2 with h2
      exact h2 ▸ convert_error_key v e2 hv
    · rcases hvs : convertL vs with e2 | rs <;> rw [hvs] at h2
      · injection h2 with h2
        exact h2 ▸ convertL_error_key vs e2 hvs
      · exact absurd h2 (by simp)

theorem convertP_error_key : ∀ (ps : List (List Nat × Bval)) (e : String),
    convertP ps = .error e → e = "not a UTF-8 key"
  | [], e, h => absurd (show Except.ok ([] : List (String × RVal)) = Except.error e from h) (by simp)
  | (k, v) :: ps, e, h => by
    have h2 : (match utf8Str k with
      | none => Except.error "not a UTF-8 key"
      | some sk =>
        match convert v with
        | Except.error e => Except.error e
        | Except.ok r =>
          match convertP ps with
          | Except.error e => Except.error e
          | Except.ok qs => Except.ok ((sk, r) :: qs)) = Except.error e := h
    rcases hk : utf8Str k with _ | sk <;> rw [hk] at h2
    · injection h2 with h2
      exact h2.symm
    · rcases hv : convert v with e2 | r <;> rw [hv] at h2
      · injection h2 with h2
        exact h2 ▸ convert_error_key v e2 hv
      · rcases hps : convertP ps with e2 | qs <;> rw [hps] at h2
        · injection h2 with h2
          exact h2 ▸ convertP_error_key ps e2 hps
        · exact absurd h2 (by simp)

end

/-- C2: with the text-key mode enabled, every dictionary key of the decoded
value is converted from raw bytes to text by strict UTF-8 decoding, a key
that fails to decode raises the invalid-UTF-8-key error, and the typed
record layer (`Backbone.__init__`) decodes through this mode: a failing key
fails construction with that error, and on success the record's backing
dictionary is the converted dictionary. -/
theorem keytostr_mode (raw : List Nat) (v : Bval) (hdec : decode raw = .ok v) :
    (∀ r, convert v = .ok r → Converts v r) ∧
    (∀ e, convert v = .error e → e = "not a UTF-8 key") ∧
    (∀ (O : PyOracle) (fields : List FieldSpec) (fb : Option String) (fuel : Nat)
       (e : String), convert v = .error e →
       backboneInit O fields fb true fuel raw = .error e) ∧
    (∀ (O : PyOracle) (fields : List FieldSpec) (fb : Option String) (fuel : Nat)
       (qs : List (String × RVal)), convert v = .ok (.dict qs) →
       backboneInit O fields fb true fuel raw = .ok (initState qs fb)) := by
  refine ⟨fun r h => convert_ok_converts v r h,
          fun e h => convert_error_key v e h, ?_, ?_⟩
  · intro O fields fb fuel e hconv
    simp [backboneInit, bdecodeK, hdec, hconv]
  · intro O fields fb fuel qs hconv
    simp [backboneInit, bdecodeK, hdec, hconv]

theorem keytostr_mode_witness :
    decode (bstr "d4:spami0ee") = .ok (Bval.dict [([115, 112, 97, 109], Bval.int 0)]) ∧
    ((∀ r, convert (Bval.dict [([115, 112, 97, 109], Bval.int 0)]) = .ok r →
        Converts (Bval.dict [([115, 112, 97, 109], Bval.int 0)]) r) ∧
     (∀ e, convert (Bval.dict [([115, 112, 97, 109], Bval.int 0)]) = .error e →
        e = "not a UTF-8 key") ∧
     (∀ (O : PyOracle) (fields : List FieldSpec) (fb : Option String) (fuel : Nat)
        (e : String), convert (Bval.dict [([115, 112, 97, 109], Bval.int 0)]) = .error e →
        backboneInit O fields fb true fuel (bstr "d4:spami0ee") = .error e) ∧
     (∀ (O : PyOracle) (fields : List FieldSpec) (fb : Option String) (fuel : Nat)
        (qs : List (String × RVal)),
        convert (Bval.dict [([115, 112, 97, 109], Bval.int 0)]) = .ok (.dict qs) →
        backboneInit O fields fb true fuel (bstr "d4:spami0ee") = .ok (initState qs fb))) :=
  ⟨rfl, keytostr_mode (bstr "d4:spami0ee") (Bval.dict [([115, 112, 97, 109], Bval.int 0)]) rfl⟩

theorem tryDecode_none (O : PyOracle) (bs : List Nat) :
    ∀ es, tryDecode O bs es = none → ∀ e ∈ es, O.dec e bs = none
  | [], _, e, he => absurd he (List.not_mem_nil e)
  | e0 :: es, h, e, he => by
    have h2 : (match O.dec e0 bs with
      | some s => some s
      | none => tryDecode O bs es) = none := h
    rcases hd : O.dec e0 bs with _ | s <;> rw [hd] at h2
    · rcases List.mem_cons.mp he with rfl | he2
      · exact hd
      · exact tryDecode_none O bs es h2 e he2
    · exact absurd h2 (by simp)

theorem runLoad_getat_empty (O : PyOracle) (fuel : Nat) (name : String) (st : TState)
    (h : ¬ name = "fallback_encoding") :
    runLoad O [] (fuel + 1) (.getat name) st = .ok (st, none) := by
  rw [runLoad.eq_def]
  simp [h, List.find?]

theorem runLoad_explicit_fail (O : PyOracle) (bs : List Nat) (enc : String)
    (henc : ¬ enc = "") (fields : List FieldSpec) (fuel : Nat) (name key : String)
    (validate : RVal → Except String Unit) (st : TState)
    (hdata : alookup st.data key = some (.bytes bs))
    (hdec : O.dec enc bs = none) :
    runLoad O fields (fuel + 1)
        (.loadFrom ⟨name, key, .encoded (some enc) validate⟩) st =
      .error (name ++ ": cannot decode as " ++ String.intercalate " or " [enc],
        bump name st) := by
  have hdata2 : alookup (bump name st).data key = some (RVal.bytes bs) := hdata
  rw [runLoad.eq_def]
  simp only [FieldKind.encoded.injEq, hdata2]
  rw [if_neg (by simp [henc])]
  have htry : tryDecode O bs [enc] = none := by
    have h2 : (match O.dec enc bs with
      | some s => some s
      | none => tryDecode O bs []) = tryDecode O bs [enc] := rfl
    rw [← h2, hdec]
    rfl
  rw [htry]

theorem runLoad_explicit_ok (O : PyOracle) (bs : List Nat) (enc : String)
    (henc : ¬ enc = "") (fields : List FieldSpec) (fuel : Nat) (name key : String)
    (validate : RVal → Except String Unit) (st : TState) (s : String)
    (hdata : alookup st.data key = some (.bytes bs))
    (hdec : O.dec enc bs = some s)
    (hval : validate (.str s) = .ok ()) :
    runLoad O fields (fuel + 1)
        (.loadFrom ⟨name, key, .encoded (some enc) validate⟩) st =
      .ok (finishLoad ⟨name, key, .encoded (some enc) validate⟩
        (some (.str s)) (bump name st), some (.str s)) := by
  have hdata2 : alookup (bump name st).data key = some (RVal.bytes bs) := hdata
  rw [runLoad.eq_def]
  simp only [hdata2]
  rw [if_neg (by simp [henc])]
  have htry : tryDecode O bs [enc] = some s := by
    have h2 : (match O.dec enc bs with
      | some s => some s
      | none => tryDecode O bs []) = tryDecode O bs [enc] := rfl
    rw [← h2, hdec]
  rw [htry]
  simp [hval]

theorem runLoad_ctx_empty_fail (O : PyOracle) (bs : List Nat) (fuel : Nat)
    (name key : String) (validate : RVal → Except String Unit) (st : TState)
    (htry : tryDecode O bs (ctxCandidates none st.fallback) = none) :
    runLoad O [] (fuel + 2) (.ctxResolve ⟨name, key, .encoded none validate⟩ bs) st =
      .error (name ++ ": cannot decode as " ++
        String.intercalate " or " (ctxCandidates none st.fallback), st) := by
  simp [runLoad, htry]

theorem runLoad_ctx_empty_ok (O : PyOracle) (bs : List Nat) (fuel : Nat)
    (name key : String) (validate : RVal → Except String Unit) (st : TState) (s : String)
    (htry : tryDecode O bs (ctxCandidates none st.fallback) = some s)
    (hval : validate (.str s) = .ok ()) :
    runLoad O [] (fuel + 2) (.ctxResolve ⟨name, key, .encoded none validate⟩ bs) st =
      .ok (finishLoad ⟨name, key, .encoded none validate⟩
        (some (.str s)) st, some (.str s)) := by
  simp [runLoad, htry, kindValidate, hval]

/-- C6 counterexample: when an explicit per-field encoding is configured (as
on Metainfo's `encoding = String('encoding', encoding='ASCII')`), it is the
only candidate: the load fails naming ASCII alone even though the bytes are
valid UTF-8 and the caller's fallback is UTF-8, so neither UTF-8 nor the
fallback was among the candidates tried. -/
theorem encoded_explicit_only_cex :
    (∃ st', runLoad pyO
        [⟨"encoding", "encoding", .encoded (some "ASCII") (fun _ => .ok ())⟩] 2
        (.loadFrom ⟨"encoding", "encoding", .encoded (some "ASCII") (fun _ => .ok ())⟩)
        (initState [("encoding", RVal.bytes [195, 169])] (some "UTF-8")) =
      .error ("encoding: cannot decode as ASCII", st')) ∧
    pyO.dec "UTF-8" [195, 169] = some "é" ∧
    (initState [("encoding", RVal.bytes [195, 169])] (some "UTF-8")).fallback =
      some "UTF-8" :=
  ⟨⟨_, rfl⟩, rfl, rfl⟩

/-- C6 (amended): the candidates for an `Encoded` field load are: when a
truthy explicit per-field encoding is configured, that encoding alone
(neither UTF-8 nor the fallback is tried); otherwise the context encoding
(the record's `encoding` value, or the codepage-derived name) when it is not
a spelling of UTF-8, then UTF-8, then the caller's truthy fallback.  The
first candidate that decodes successfully wins, and when none succeed the
raised error names all attempted candidates. -/
theorem encoded_candidate_order (O : PyOracle) (bs : List Nat) (enc : String)
    (ctx fallback : Option String) (henc : ¬ enc = "") :
    (∀ (fields : List FieldSpec) (fuel : Nat) (name key : String)
       (validate : RVal → Except String Unit) (st : TState),
       alookup st.data key = some (.bytes bs) →
       O.dec enc bs = none →
       runLoad O fields (fuel + 1)
           (.loadFrom ⟨name, key, .encoded (some enc) validate⟩) st =
         .error (name ++ ": cannot decode as " ++ String.intercalate " or " [enc],
           bump name st)) ∧
    (∀ (fields : List FieldSpec) (fuel : Nat) (name key : String)
       (validate : RVal → Except String Unit) (st : TState) (s : String),
       alookup st.data key = some (.bytes bs) →
       O.dec enc bs = some s →
       validate (.str s) = .ok () →
       runLoad O fields (fuel + 1)
           (.loadFrom ⟨name, key, .encoded (some enc) validate⟩) st =
         .ok (finishLoad ⟨name, key, .encoded (some enc) validate⟩
           (some (.str s)) (bump name st), some (.str s))) ∧
    (ctxCandidates ctx fallback =
      (match ctx with
       | some c => if isUtf8Name c then [] else [c]
       | none => []) ++ ["UTF-8"] ++
      (match fallback with
       | some fb => if fb == "" then [] else [fb]
       | none => [])) ∧
    (∀ (e : String) (es : List String), tryDecode O bs (e :: es) =
      match O.dec e bs with
      | some s => some s
      | none => tryDecode O bs es) ∧
    (∀ es, tryDecode O bs es = none → ∀ e ∈ es, O.dec e bs = none) ∧
    (∀ (fuel : Nat) (name key : String) (validate : RVal → Except String Unit)
       (st : TState),
       tryDecode O bs (ctxCandidates none st.fallback) = none →
       runLoad O [] (fuel + 2)
           (.ctxResolve ⟨name, key, .encoded none validate⟩ bs) st =
         .error (name ++ ": cannot decode as " ++
           String.intercalate " or " (ctxCandidates none st.fallback), st)) ∧
    (∀ (fuel : Nat) (name key : String) (validate : RVal → Except String Unit)
       (st : TState) (s : String),
       tryDecode O bs (ctxCandidates none st.fallback) = some s →
       validate (.str s) = .ok () →
       runLoad O [] (fuel + 2)
           (.ctxResolve ⟨name, key, .encoded none validate⟩ bs) st =
         .ok (finishLoad ⟨name, key, .encoded none validate⟩
           (some (.str s)) st, some (.str s))) := by
  refine ⟨?_, ?_, rfl, fun e es => rfl, tryDecode_none O bs, ?_, ?_⟩
  · intro fields fuel name key validate st hdata hdec
    exact runLoad_explicit_fail O bs enc henc fields fuel name key validate st hdata hdec
  · intro fields fuel name key validate st s hdata hdec hval
    exact runLoad_explicit_ok O bs enc henc fields fuel name key validate st s hdata hdec hval
  · intro fuel name key validate st htry
    exact runLoad_ctx_empty_fail O bs fuel name key validate st htry
  · intro fuel name key validate st s htry hval
    exact runLoad_ctx_empty_ok O bs fuel name key validate st s htry hval

theorem encoded_candidate_order_witness :
    (∀ (fields : List FieldSpec) (fuel : Nat) (name key : String)
       (validate : RVal → Except String Unit) (st : TState),
       alookup st.data key = some (.bytes [255]) →
       pyO.dec "ASCII" [255] = none →
       runLoad pyO fields (fuel + 1)
           (.loadFrom ⟨name, key, .encoded (some "ASCII") validate⟩) st =
         .error (name ++ ": cannot decode as " ++ String.intercalate " or " ["ASCII"],
           bump name st)) ∧
    (∀ (fields : List FieldSpec) (fuel : Nat) (name key : String)
       (validate : RVal → Except String Unit) (st : TState) (s : String),
       alookup st.data key = some (.bytes [255]) →
       pyO.dec "ASCII" [255] = some s →
       validate (.str s) = .ok () →
       runLoad pyO fields (fuel + 1)
           (.loadFrom ⟨name, key, .encoded (some "ASCII") validate⟩) st =
         .ok (finishLoad ⟨name, key, .encoded (some "ASCII") validate⟩
           (some (.str s)) (bump name st), some (.str s))) ∧
    (ctxCandidates (some "cp1251") (some "KOI8-R") =
      (match some "cp1251" with
       | some c => if isUtf8Name c then [] else [c]
       | none => []) ++ ["UTF-8"] ++
      (match some "KOI8-R" with
       | some fb => if fb == "" then [] else [fb]
       | none => [])) ∧
    (∀ (e : String) (es : List String), tryDecode pyO [255] (e :: es) =
      match pyO.dec e [255] with
      | some s => some s
      | none => tryDecode pyO [255] es) ∧
    (∀ es, tryDecode pyO [255] es = none → ∀ e ∈ es, pyO.dec e [255] = none) ∧
    (∀ (fuel : Nat) (name key : String) (validate : RVal → Except String Unit)
       (st : TState),
       tryDecode pyO [255] (ctxCandidates none st.fallback) = none →
       runLoad pyO [] (fuel + 2)
           (.ctxResolve ⟨name, key, .encoded none validate⟩ [255]) st =
         .error (name ++ ": cannot decode as " ++
           String.intercalate " or " (ctxCandidates none st.fallback), st)) ∧
    (∀ (fuel : Nat) (name key : String) (validate : RVal → Except String Unit)
       (st : TState) (s : String),
       tryDecode pyO [255] (ctxCandidates none st.fallback) = some s →
       validate (.str s) = .ok () →
       runLoad pyO [] (fuel + 2)
           (.ctxResolve ⟨name, key, .encoded none validate⟩ [255]) st =
         .ok (finishLoad ⟨name, key, .encoded none validate⟩
           (some (.str s)) st, some (.str s))) :=
  encoded_candidate_order pyO [255] "ASCII" (some "cp1251") (some "KOI8-R") (by decide)

theorem alookup_not_mem {α : Type} : ∀ (d : List (String × α)) (k : String),
    k ∉ d.map Prod.fst → alookup d k = none
  | [], _, _ => rfl
  | (k0, v0) :: t, k, h => by
    have hk : ¬ k0 = k := fun e => h (by simp [← e])
    show (if k0 = k then some v0 else alookup t k) = none
    rw [if_neg hk]
    exact alookup_not_mem t k (fun hm => h (by simp [hm]))

theorem adelete_sublist {α : Type} : ∀ (d : List (String × α)) (key : String),
    List.Sublist (adelete d key) d
  | [], _ => List.Sublist.refl _
  | (k0, v0) :: t, key => by
    show List.Sublist (if k0 = key then t else (k0, v0) :: adelete t key) ((k0, v0) :: t)
    by_cases hk : k0 = key
    · rw [if_pos hk]
      exact List.sublist_cons_self _ _
    · rw [if_neg hk]
      exact List.Sublist.cons₂ _ (adelete_sublist t key)

theorem alookup_adelete_eq {α : Type} : ∀ (d : List (String × α)) (key k : String),
    (d.map Prod.fst).Nodup →
    alookup (adelete d key) k = if k = key then none else alookup d k
  | [], key, k, _ => by
    show (none : Option α) = if k = key then none else (none : Option α)
    by_cases h : k = key <;> simp [h]
  | (k0, v0) :: t, key, k, hnd => by
    have hnd2 : (k0 :: t.map Prod.fst).Nodup := by
      have he : ((k0, v0) :: t).map Prod.fst = k0 :: t.map Prod.fst := rfl
      rwa [he] at hnd
    have hnd' : (t.map Prod.fst).Nodup := hnd2.of_cons
    have hk0t : k0 ∉ t.map Prod.fst := (List.nodup_cons.mp hnd2).1
    show alookup (if k0 = key then t else (k0, v0) :: adelete t key) k =
      if k = key then none else alookup ((k0, v0) :: t) k
    by_cases h0 : k0 = key
    · rw [if_pos h0]
      by_cases hk : k = key
      · rw [if_pos hk]
        exact alookup_not_mem t k (by rw [hk, ← h0]; exact hk0t)
      · rw [if_neg hk]
        show alookup t k = if k0 = k then some v0 else alookup t k
        rw [if_neg (fun e => hk (by rw [← e, h0]))]
    · rw [if_neg h0]
      show (if k0 = k then some v0 else alookup (adelete t key) k) =
        if k = key then none else alookup ((k0, v0) :: t) k
      by_cases hk : k = key
      · rw [if_pos hk]
        rw [if_neg (fun e => h0 (by rw [e, hk]))]
        rw [alookup_adelete_eq t key k hnd', if_pos hk]
      · rw [if_neg hk]
        show _ = if k0 = k then some v0 else alookup t k
        by_cases h0k : k0 = k
        · rw [if_pos h0k, if_pos h0k]
        · rw [if_neg h0k, if_neg h0k, alookup_adelete_eq t key k hnd', if_neg hk]

theorem dictShrinks_refl (d : List (String × RVal)) : dictShrinks d d :=
  fun _ => Or.inl rfl

theorem dictShrinks_trans {d2 d1 d0 : List (String × RVal)}
    (h21 : dictShrinks d2 d1) (h10 : dictShrinks d1 d0) : dictShrinks d2 d0 := by
  intro k
  rcases h21 k with h | h
  · rcases h10 k with h2 | h2
    · exact Or.inl (h.trans h2)
    · exact Or.inr (h.trans h2)
  · exact Or.inr h

theorem dictShrinks_adelete (d : List (String × RVal)) (key : String)
    (hnd : (d.map Prod.fst).Nodup) : dictShrinks (adelete d key) d := by
  intro k
  rw [alookup_adelete_eq d key k hnd]
  by_cases hk : k = key
  · exact Or.inr (by rw [if_pos hk])
  · exact Or.inl (by rw [if_neg hk])

theorem nodup_adelete {α : Type} (d : List (String × α)) (key : String)
    (hnd : (d.map Prod.fst).Nodup) : ((adelete d key).map Prod.fst).Nodup :=
  hnd.sublist ((adelete_sublist d key).map Prod.fst)

/-- Every call of the load machinery only removes keys from the backing
dictionary; it never adds or rebinds one, also on the state an error carries. -/
theorem runLoad_shrinks (O : PyOracle) (fields : List FieldSpec) :
    ∀ (fuel : Nat) (c : LoadCall) (st : TState),
      (st.data.map Prod.fst).Nodup →
      ((resState (runLoad O fields fuel c st)).data.map Prod.fst).Nodup ∧
      dictShrinks (resState (runLoad O fields fuel c st)).data st.data
  | 0, c, st, hnd => ⟨hnd, dictShrinks_refl _⟩
  | fuel + 1, .getat name, st, hnd => by
    simp only [runLoad]
    split
    · exact ⟨hnd, dictShrinks_refl _⟩
    · split
      · exact ⟨hnd, dictShrinks_refl _⟩
      · split
        · exact ⟨hnd, dictShrinks_refl _⟩
        · exact runLoad_shrinks O fields fuel _ st hnd
  | fuel + 1, .loadFrom f, st, hnd => by
    have hbd : (bump f.name st).data = st.data := rfl
    have hnb : ((bump f.name st).data.map Prod.fst).Nodup := hnd
    simp only [runLoad]
    split
    · split
      · exact ⟨nodup_adelete _ _ hnd, dictShrinks_adelete _ _ hnd⟩
      · split
        · exact ⟨hnd, dictShrinks_refl _⟩
        · split
          · exact ⟨hnd, dictShrinks_refl _⟩
          · exact ⟨nodup_adelete _ _ hnd, dictShrinks_adelete _ _ hnd⟩
    · split
      · exact ⟨nodup_adelete _ _ hnd, dictShrinks_adelete _ _ hnd⟩
      · split
        · split
          · exact runLoad_shrinks O fields fuel _ _ hnb
          · split
            · split
              · exact ⟨hnd, dictShrinks_refl _⟩
              · exact ⟨nodup_adelete _ _ hnd, dictShrinks_adelete _ _ hnd⟩
            · exact ⟨hnd, dictShrinks_refl _⟩
        · exact runLoad_shrinks O fields fuel _ _ hnb
      · exact ⟨hnd, dictShrinks_refl _⟩
  | fuel + 1, .ctxResolve f bs, st, hnd => by
    simp only [runLoad]
    split
    next err1 heq1 =>
      have ih1 := runLoad_shrinks O fields fuel (.getat "codepage") st hnd
      rw [heq1] at ih1
      exact ih1
    next st1 cpv heq1 =>
      have ih1 := runLoad_shrinks O fields fuel (.getat "codepage") st hnd
      rw [heq1] at ih1
      have hnd1 : (st1.data.map Prod.fst).Nodup := ih1.1
      have hs1 : dictShrinks st1.data st.data := ih1.2
      split
      next err2 heq2 =>
        have ih2 := runLoad_shrinks O fields fuel (.getat "encoding") st1 hnd1
        rw [heq2] at ih2
        exact ⟨ih2.1, dictShrinks_trans ih2.2 hs1⟩
      next st2 encv heq2 =>
        have ih2 := runLoad_shrinks O fields fuel (.getat "encoding") st1 hnd1
        rw [heq2] at ih2
        have hnd2 : (st2.data.map Prod.fst).Nodup := ih2.1
        have hs2 : dictShrinks st2.data st.data := dictShrinks_trans ih2.2 hs1
        split
        · exact ⟨hnd2, hs2⟩
        · split
          · split
            · exact ⟨hnd2, hs2⟩
            · exact ⟨nodup_adelete _ _ hnd2,
                dictShrinks_trans (dictShrinks_adelete _ _ hnd2) hs2⟩
          · exact ⟨hnd2, hs2⟩

theorem runLoad_plain_fail_frame (O : PyOracle) (fields : List FieldSpec) (fuel : Nat)
    (name key : String) (load : RVal → Except String RVal)
    (validate : RVal → Except String Unit) (st : TState) (e : String) (st' : TState)
    (h : runLoad O fields (fuel + 1) (.loadFrom ⟨name, key, .plain load validate⟩) st =
      .error (e, st')) :
    st'.data = st.data ∧ st'.slots = st.slots ∧ st'.flags = st.flags := by
  simp only [runLoad] at h
  split at h
  · exact absurd h (by simp)
  · split at h
    · injection h with h3
      injection h3 with h4 h5
      rw [← h5]
      exact ⟨rfl, rfl, rfl⟩
    · split at h
      · injection h with h3
        injection h3 with h4 h5
        rw [← h5]
        exact ⟨rfl, rfl, rfl⟩
      · exact absurd h (by simp)

theorem runLoad_explicit_fail_frame (O : PyOracle) (fields : List FieldSpec) (fuel : Nat)
    (name key enc : String) (validate : RVal → Except String Unit) (st : TState)
    (e : String) (st' : TState) (henc : ¬ enc = "")
    (h : runLoad O fields (fuel + 1)
        (.loadFrom ⟨name, key, .encoded (some enc) validate⟩) st = .error (e, st')) :
    st'.data = st.data ∧ st'.slots = st.slots ∧ st'.flags = st.flags := by
  simp only [runLoad] at h
  repeat' split at h
  · exact Except.noConfusion h
  · exact absurd (by simpa using ‹(enc == "") = true›) henc
  · have h5 : bump name st = st' := congrArg
      (fun x => match x with | Except.error p => p.2 | Except.ok q => q.1) h
    rw [← h5]
    exact ⟨rfl, rfl, rfl⟩
  · exact Except.noConfusion h
  · have h5 : bump name st = st' := congrArg
      (fun x => match x with | Except.error p => p.2 | Except.ok q => q.1) h
    rw [← h5]
    exact ⟨rfl, rfl, rfl⟩
  · have h5 : bump name st = st' := congrArg
      (fun x => match x with | Except.error p => p.2 | Except.ok q => q.1) h
    rw [← h5]
    exact ⟨rfl, rfl, rfl⟩

/-- C7 counterexample: loading the `comment` field fails (its raw bytes
decode under none of the candidate encodings), yet the backing dictionary is
not left as it was: resolving the candidate list loaded the sibling
`encoding` field and popped its key before the failure was raised. -/
theorem load_from_failure_mutates_cex :
    ∃ st', runLoad pyO
        [⟨"encoding", "encoding", .encoded (some "ASCII") (fun _ => .ok ())⟩,
         ⟨"comment", "comment", .encoded none (fun _ => .ok ())⟩] 4
        (.loadFrom ⟨"comment", "comment", .encoded none (fun _ => .ok ())⟩)
        (initState [("comment", RVal.bytes [255]),
          ("encoding", RVal.bytes [65, 83, 67, 73, 73])] none) =
      .error ("comment: cannot decode as ASCII or UTF-8", st') ∧
      alookup st'.data "encoding" = none ∧
      alookup (initState [("comment", RVal.bytes [255]),
        ("encoding", RVal.bytes [65, 83, 67, 73, 73])] none).data "encoding" =
        some (RVal.bytes [65, 83, 67, 73, 73]) :=
  ⟨_, rfl, rfl, rfl⟩

/-- C7 (amended): a failed `load_from` leaves the backing dictionary, the
cached slots and the loaded flags exactly as they were for every field whose
load consults no sibling attribute — a plain field, or an `Encoded` field
with a truthy explicit per-field encoding — and in general any load, failed
or not, can only remove keys from the backing dictionary, never add or
rebind one; so the worst a failed `Encoded` load can have done is pop the
keys of the sibling `encoding`/`codepage` fields its candidate resolution
consulted (the counterexample shows that mutation is real). -/
theorem load_from_failure_frame :
    (∀ (O : PyOracle) (fields : List FieldSpec) (fuel : Nat) (name key : String)
       (load : RVal → Except String RVal) (validate : RVal → Except String Unit)
       (st : TState) (e : String) (st' : TState),
       runLoad O fields (fuel + 1) (.loadFrom ⟨name, key, .plain load validate⟩) st =
         .error (e, st') →
       st'.data = st.data ∧ st'.slots = st.slots ∧ st'.flags = st.flags) ∧
    (∀ (O : PyOracle) (fields : List FieldSpec) (fuel : Nat) (name key enc : String)
       (validate : RVal → Except String Unit) (st : TState) (e : String) (st' : TState),
       ¬ enc = "" →
       runLoad O fields (fuel + 1)
           (.loadFrom ⟨name, key, .encoded (some enc) validate⟩) st =
         .error (e, st') →
       st'.data = st.data ∧ st'.slots = st.slots ∧ st'.flags = st.flags) ∧
    (∀ (O : PyOracle) (fields : List FieldSpec) (fuel : Nat) (c : LoadCall) (st : TState),
       (st.data.map Prod.fst).Nodup →
       dictShrinks (resState (runLoad O fields fuel c st)).data st.data) :=
  ⟨fun O fields fuel name key load validate st e st' h =>
    runLoad_plain_fail_frame O fields fuel name key load validate st e st' h,
   fun O fields fuel name key enc validate st e st' henc h =>
    runLoad_explicit_fail_frame O fields fuel name key enc validate st e st' henc h,
   fun O fields fuel c st hnd => (runLoad_shrinks O fields fuel c st hnd).2⟩

theorem load_from_failure_frame_witness :
    ((bump "private" (initState [("private", RVal.int 5)] none)).data =
        (initState [("private", RVal.int 5)] none).data ∧
     (bump "private" (initState [("private", RVal.int 5)] none)).slots =
        (initState [("private", RVal.int 5)] none).slots ∧
     (bump "private" (initState [("private", RVal.int 5)] none)).flags =
        (initState [("private", RVal.int 5)] none).flags) ∧
    dictShrinks (resState (runLoad pyO [] 1
        (.loadFrom ⟨"private", "private", .plain (fun v => .ok v)
          (fun _ => .error "private: expected int")⟩)
        (initState [("private", RVal.int 5)] none))).data
      (initState [("private", RVal.int 5)] none).data :=
  ⟨(load_from_failure_frame).1 pyO [] 0 "private" "private" (fun v => .ok v)
      (fun _ => .error "private: expected int")
      (initState [("private", RVal.int 5)] none) "private: expected int"
      (bump "private" (initState [("private", RVal.int 5)] none)) rfl,
   (load_from_failure_frame).2.2 pyO [] 1
      (.loadFrom ⟨"private", "private", .plain (fun v => .ok v)
        (fun _ => .error "private: expected int")⟩)
      (initState [("private", RVal.int 5)] none) (by decide)⟩

theorem alookup_aset {α : Type} : ∀ (d : List (String × α)) (key : String) (v : α) (k : String),
    alookup (aset d key v) k = if k = key then some v else alookup d k
  | [], key, v, k => by
    show (if key = k then some v else none) = if k = key then some v else none
    by_cases h : k = key
    · rw [if_pos h.symm, if_pos h]
    · rw [if_neg (fun e => h e.symm), if_neg h]
  | (k0, w) :: t, key, v, k => by
    show alookup (if k0 = key then (k0, v) :: t else (k0, w) :: aset t key v) k =
      if k = key then some v else alookup ((k0, w) :: t) k
    by_cases h0 : k0 = key
    · rw [if_pos h0]
      show (if k0 = k then some v else alookup t k) = _
      by_cases hk : k = key
      · rw [if_pos (h0.trans hk.symm), if_pos hk]
      · have hk0 : ¬ k0 = k := fun e => hk (e.symm.trans h0)
        rw [if_neg hk0, if_neg hk]
        show _ = if k0 = k then some w else alookup t k
        rw [if_neg hk0]
    · rw [if_neg h0]
      show (if k0 = k then some w else alookup (aset t key v) k) =
        if k = key then some v else alookup ((k0, w) :: t) k
      by_cases hk : k = key
      · rw [if_pos hk, if_neg (fun e => h0 (e.trans hk)),
          alookup_aset t key v k, if_pos hk]
      · rw [if_neg hk]
        show _ = if k0 = k then some w else alookup t k
        by_cases h0k : k0 = k
        · rw [if_pos h0k, if_pos h0k]
        · rw [if_neg h0k, if_neg h0k, alookup_aset t key v k, if_neg hk]

theorem counts_bump (m : String) (st : TState) (n : String) :
    (bump m st).counts n = if n = m then st.counts n + 1 else st.counts n := rfl

theorem trig_finishLoad (base st : TState) (f : FieldSpec) (val : Option RVal) (n : String)
    (h : n = f.name ∨ Trig base st n) : Trig base (finishLoad f val st) n := by
  intro hlt
  have hsl : alookup (finishLoad f val st).slots n =
      if n = f.name then some val else alookup st.slots n := alookup_aset _ _ _ _
  have hfl : alookup (finishLoad f val st).flags n =
      if n = f.name then some true else alookup st.flags n := alookup_aset _ _ _ _
  by_cases hn : n = f.name
  · rw [hsl, hfl, if_pos hn, if_pos hn]
    exact ⟨rfl, rfl⟩
  · rcases h with h | h
    · exact absurd h hn
    · rw [hsl, hfl, if_neg hn, if_neg hn]
      exact h hlt

theorem cntb_bump (base st : TState) (m : String) (hc : CntB base st)
    (hcnt : st.counts m ≤ base.counts m) : CntB base (bump m st) := by
  intro n
  rw [counts_bump]
  by_cases hn : n = m
  · rw [if_pos hn, hn]
    exact Nat.add_le_add_right hcnt 1
  · rw [if_neg hn]
    exact hc n

theorem inv1_bump (base st : TState) (m : String) (hInv : Inv1 base st m)
    (hcnt : st.counts m ≤ base.counts m) : Inv1 base (bump m st) m := by
  refine ⟨cntb_bump base st m hInv.1 hcnt, ?_⟩
  intro n hn hlt
  have hlt2 : base.counts n < st.counts n := by
    rw [counts_bump, if_neg hn] at hlt
    exact hlt
  exact hInv.2 n hn hlt2

theorem inv1_finish_bump (base st : TState) (f : FieldSpec) (val : Option RVal) (ex : String)
    (hInv : Inv1 base st ex) (hcnt : st.counts f.name ≤ base.counts f.name) :
    Inv1 base (finishLoad f val (bump f.name st)) ex ∧
    Trig base (finishLoad f val (bump f.name st)) f.name := by
  have hcounts : ∀ n, (finishLoad f val (bump f.name st)).counts n =
      if n = f.name then st.counts n + 1 else st.counts n := fun n => rfl
  refine ⟨⟨?_, ?_⟩, ?_⟩
  · intro n
    rw [hcounts n]
    by_cases hn : n = f.name
    · rw [if_pos hn, hn]
      exact Nat.add_le_add_right hcnt 1
    · rw [if_neg hn]
      exact hInv.1 n
  · intro n hn
    apply trig_finishLoad
    by_cases hfn : n = f.name
    · exact Or.inl hfn
    · right
      intro hlt
      have hlt2 : base.counts n < st.counts n := by
        rw [counts_bump, if_neg hfn] at hlt
        exact hlt
      exact hInv.2 n hn hlt2
  · exact trig_finishLoad base (bump f.name st) f val f.name (Or.inl rfl)

mutual

theorem loadFrom_once (O : PyOracle) (fields : List FieldSpec) (base : TState) :
    ∀ (fuel : Nat) (f : FieldSpec) (st : TState) (ex : String),
      f ∈ fields →
      Inv1 base st ex →
      st.counts f.name ≤ base.counts f.name →
      (ex = f.name ∨ nonRecursive f.kind = true) →
      (∀ g ∈ fields, g.name = "codepage" → nonRecursive g.kind = true) →
      (∀ g ∈ fields, g.name = "encoding" → nonRecursive g.kind = true) →
      (∀ st' r, runLoad O fields fuel (.loadFrom f) st = .ok (st', r) →
        Inv1 base st' ex ∧ Trig base st' f.name) ∧
      (∀ e st', runLoad O fields fuel (.loadFrom f) st = .error (e, st') →
        CntB base st')
  | 0, f, st, ex, _, hInv, _, _, _, _ =>
    ⟨fun st' r h => Except.noConfusion h,
     fun e st' h => by
      have h5 : st = st' := congrArg resState h
      rw [← h5]
      exact hInv.1⟩
  | fuel + 1, f, st, ex, hmem, hInv, hcnt, hex, Hcp, Henc => by
    have hfin := fun val => inv1_finish_bump base st f val ex hInv hcnt
    have hcb : CntB base (bump f.name st) := cntb_bump base st f.name hInv.1 hcnt
    have hexeq : nonRecursive f.kind = false → ex = f.name := by
      intro hnr
      rcases hex with h | h
      · exact h
      · rw [h] at hnr
        exact Bool.noConfusion hnr
    have hncp : nonRecursive f.kind = false → ¬ "codepage" = f.name := by
      intro hnr e
      have h2 := Hcp f hmem e.symm
      rw [h2] at hnr
      exact Bool.noConfusion hnr
    have hnenc : nonRecursive f.kind = false → ¬ "encoding" = f.name := by
      intro hnr e
      have h2 := Henc f hmem e.symm
      rw [h2] at hnr
      exact Bool.noConfusion hnr
    constructor
    · intro st' r h
      simp only [runLoad] at h
      split at h
      next load validate heqk =>
        split at h
        · have h5 : finishLoad f none (bump f.name st) = st' := congrArg resState h
          rw [← h5]
          exact hfin none
        · split at h
          next e2 heq2 => exact Except.noConfusion h
          next v heq2 =>
            split at h
            next e3 heq3 => exact Except.noConfusion h
            next u heq3 =>
              have h5 : finishLoad f (some v) (bump f.name st) = st' := congrArg resState h
              rw [← h5]
              exact hfin (some v)
      next explicit validate heqk =>
        split at h
        · have h5 : finishLoad f none (bump f.name st) = st' := congrArg resState h
          rw [← h5]
          exact hfin none
        next bs2 heqb =>
          split at h
          next enc =>
            split at h
            next hcond =>
              have hnr : nonRecursive f.kind = false := by
                rw [heqk]
                simp [nonRecursive, hcond]
              have hb : Inv1 base (bump f.name st) f.name :=
                inv1_bump base st f.name ((hexeq hnr) ▸ hInv) hcnt
              have ih := ctxResolve_once O fields base fuel f bs2 (bump f.name st) hb
                (hncp hnr) (hnenc hnr) Hcp Henc
              have hall := ih.1 st' r h
              exact ⟨⟨hall.1, fun n _ => hall.2 n⟩, hall.2 f.name⟩
            next hcond =>
              split at h
              next s2 heq3 =>
                split at h
                next e4 heq4 => exact Except.noConfusion h
                next u heq4 =>
                  have h5 : finishLoad f (some (RVal.str s2)) (bump f.name st) = st' :=
                    congrArg resState h
                  rw [← h5]
                  exact hfin (some (RVal.str s2))
              next heq3 => exact Except.noConfusion h
          · have hnr : nonRecursive f.kind = false := by
              rw [heqk]
              simp [nonRecursive]
            have hb : Inv1 base (bump f.name st) f.name :=
              inv1_bump base st f.name ((hexeq hnr) ▸ hInv) hcnt
            have ih := ctxResolve_once O fields base fuel f bs2 (bump f.name st) hb
              (hncp hnr) (hnenc hnr) Hcp Henc
            have hall := ih.1 st' r h
            exact ⟨⟨hall.1, fun n _ => hall.2 n⟩, hall.2 f.name⟩
        next v heqb hne => exact Except.noConfusion h
    · intro e st' h
      simp only [runLoad] at h
      split at h
      next load validate heqk =>
        split at h
        · exact Except.noConfusion h
        · split at h
          next e2 heq2 =>
            have h5 : bump f.name st = st' := congrArg resState h
            rw [← h5]
            exact hcb
          next v heq2 =>
            split at h
            next e3 heq3 =>
              have h5 : bump f.name st = st' := congrArg resState h
              rw [← h5]
              exact hcb
            next u heq3 => exact Except.noConfusion h
      next explicit validate heqk =>
        split at h
        · exact Except.noConfusion h
        next bs2 heqb =>
          split at h
          next enc =>
            split at h
            next hcond =>
              have hnr : nonRecursive f.kind = false := by
                rw [heqk]
                simp [nonRecursive, hcond]
              have hb : Inv1 base (bump f.name st) f.name :=
                inv1_bump base st f.name ((hexeq hnr) ▸ hInv) hcnt
              have ih := ctxResolve_once O fields base fuel f bs2 (bump f.name st) hb
                (hncp hnr) (hnenc hnr) Hcp Henc
              exact ih.2 e st' h
            next hcond =>
              split at h
              next s2 heq3 =>
                split at h
                next e4 heq4 =>
                  have h5 : bump f.name st = st' := congrArg resState h
                  rw [← h5]
                  exact hcb
                next u heq4 => exact Except.noConfusion h
              next heq3 =>
                have h5 : bump f.name st = st' := congrArg resState h
                rw [← h5]
                exact hcb
          · have hnr : nonRecursive f.kind = false := by
              rw [heqk]
              simp [nonRecursive]
            have hb : Inv1 base (bump f.name st) f.name :=
              inv1_bump base st f.name ((hexeq hnr) ▸ hInv) hcnt
            have ih := ctxResolve_once O fields base fuel f bs2 (bump f.name st) hb
              (hncp hnr) (hnenc hnr) Hcp Henc
            exact ih.2 e st' h
        next v heqb hne =>
          have h5 : bump f.name st = st' := congrArg resState h
          rw [← h5]
          exact hcb

theorem getat_once (O : PyOracle) (fields : List FieldSpec) (base : TState) :
    ∀ (fuel : Nat) (name : String) (st : TState) (ex : String),
      Inv1 base st ex →
      ¬ name = ex →
      (∀ g ∈ fields, g.name = name → nonRecursive g.kind = true) →
      (∀ g ∈ fields, g.name = "codepage" → nonRecursive g.kind = true) →
      (∀ g ∈ fields, g.name = "encoding" → nonRecursive g.kind = true) →
      (∀ st' r, runLoad O fields fuel (.getat name) st = .ok (st', r) → Inv1 base st' ex) ∧
      (∀ e st', runLoad O fields fuel (.getat name) st = .error (e, st') → CntB base st')
  | 0, name, st, ex, hInv, _, _, _, _ =>
    ⟨fun st' r h => Except.noConfusion h,
     fun e st' h => by
      have h5 : st = st' := congrArg resState h
      rw [← h5]
      exact hInv.1⟩
  | fuel + 1, name, st, ex, hInv, hnex, Hname, Hcp, Henc => by
    by_cases hfb : name = "fallback_encoding"
    · refine ⟨?_, ?_⟩
      · intro st' r h
        simp only [runLoad, if_pos hfb] at h
        have h5 : st = st' := congrArg resState h
        rw [← h5]
        exact hInv
      · intro e st' h
        simp only [runLoad, if_pos hfb] at h
        exact Except.noConfusion h
    · rcases hfind : List.find? (fun g => g.name == name) fields with _ | g
      · refine ⟨?_, ?_⟩
        · intro st' r h
          simp only [runLoad, if_neg hfb, hfind] at h
          have h5 : st = st' := congrArg resState h
          rw [← h5]
          exact hInv
        · intro e st' h
          simp only [runLoad, if_neg hfb, hfind] at h
          exact Except.noConfusion h
      · have hgmem : g ∈ fields := List.mem_of_find?_eq_some hfind
        have hgname : g.name = name := by simpa using List.find?_some hfind
        have hgnr : nonRecursive g.kind = true := Hname g hgmem hgname
        rcases hslot : alookup st.slots g.name with _ | v
        · have hcnt : st.counts g.name ≤ base.counts g.name := by
            by_contra hlt
            push_neg at hlt
            have h2 := (hInv.2 g.name (hgname ▸ hnex) hlt).1
            rw [hslot] at h2
            exact Bool.noConfusion h2
          have ih := loadFrom_once O fields base fuel g st ex hgmem hInv hcnt
            (Or.inr hgnr) Hcp Henc
          refine ⟨?_, ?_⟩
          · intro st' r h
            simp only [runLoad, if_neg hfb, hfind, hslot] at h
            exact (ih.1 st' r h).1
          · intro e st' h
            simp only [runLoad, if_neg hfb, hfind, hslot] at h
            exact ih.2 e st' h
        · refine ⟨?_, ?_⟩
          · intro st' r h
            simp only [runLoad, if_neg hfb, hfind, hslot] at h
            have h5 : st = st' := congrArg resState h
            rw [← h5]
            exact hInv
          · intro e st' h
            simp only [runLoad, if_neg hfb, hfind, hslot] at h
            exact Except.noConfusion h

theorem ctxResolve_once (O : PyOracle) (fields : List FieldSpec) (base : TState) :
    ∀ (fuel : Nat) (f : FieldSpec) (bs : List Nat) (st : TState),
      Inv1 base st f.name →
      ¬ "codepage" = f.name →
      ¬ "encoding" = f.name →
      (∀ g ∈ fields, g.name = "codepage" → nonRecursive g.kind = true) →
      (∀ g ∈ fields, g.name = "encoding" → nonRecursive g.kind = true) →
      (∀ st' r, runLoad O fields fuel (.ctxResolve f bs) st = .ok (st', r) →
        CntB base st' ∧ ∀ n, Trig base st' n) ∧
      (∀ e st', runLoad O fields fuel (.ctxResolve f bs) st = .error (e, st') →
        CntB base st')
  | 0, f, bs, st, hInv, _, _, _, _ =>
    ⟨fun st' r h => Except.noConfusion h,
     fun e st' h => by
      have h5 : st = st' := congrArg resState h
      rw [← h5]
      exact hInv.1⟩
  | fuel + 1, f, bs, st, hInv, hncp, hnenc, Hcp, Henc => by
    constructor
    · intro st' r h
      simp only [runLoad] at h
      split at h
      next e1 heq1 => exact Except.noConfusion h
      next st1 cpv heq1 =>
        have hInv1 : Inv1 base st1 f.name :=
          (getat_once O fields base fuel "codepage" st f.name hInv hncp Hcp Hcp Henc).1
            st1 cpv heq1
        split at h
        next e2 heq2 => exact Except.noConfusion h
        next st2 encv heq2 =>
          have hInv2 : Inv1 base st2 f.name :=
            (getat_once O fields base fuel "encoding" st1 f.name hInv1 hnenc Henc Hcp
              Henc).1 st2 encv heq2
          split at h
          · exact Except.noConfusion h
          · split at h
            next s2 heq3 =>
              split at h
              next e4 heq4 => exact Except.noConfusion h
              next u heq4 =>
                have h5 : finishLoad f (some (RVal.str s2)) st2 = st' := congrArg resState h
                rw [← h5]
                refine ⟨fun n => hInv2.1 n, ?_⟩
                intro n
                apply trig_finishLoad
                by_cases hfn : n = f.name
                · exact Or.inl hfn
                · exact Or.inr (hInv2.2 n hfn)
            next heq3 => exact Except.noConfusion h
    · intro e st' h
      simp only [runLoad] at h
      split at h
      next e1 heq1 =>
        obtain ⟨e1s, e1t⟩ := e1
        have h5 : e1t = st' := congrArg resState h
        rw [← h5]
        exact (getat_once O fields base fuel "codepage" st f.name hInv hncp Hcp Hcp
          Henc).2 e1s e1t heq1
      next st1 cpv heq1 =>
        have hInv1 : Inv1 base st1 f.name :=
          (getat_once O fields base fuel "codepage" st f.name hInv hncp Hcp Hcp Henc).1
            st1 cpv heq1
        split at h
        next e2 heq2 =>
          obtain ⟨e2s, e2t⟩ := e2
          have h5 : e2t = st' := congrArg resState h
          rw [← h5]
          exact (getat_once O fields base fuel "encoding" st1 f.name hInv1 hnenc Henc
            Hcp Henc).2 e2s e2t heq2
        next st2 encv heq2 =>
          have hInv2 : Inv1 base st2 f.name :=
            (getat_once O fields base fuel "encoding" st1 f.name hInv1 hnenc Henc Hcp
              Henc).1 st2 encv heq2
          split at h
          · have h5 : st2 = st' := congrArg resState h
            rw [← h5]
            exact hInv2.1
          · split at h
            next s2 heq3 =>
              split at h
              next e4 heq4 =>
                have h5 : st2 = st' := congrArg resState h
                rw [← h5]
                exact hInv2.1
              next u heq4 => exact Except.noConfusion h
            next heq3 =>
              have h5 : st2 = st' := congrArg resState h
              rw [← h5]
              exact hInv2.1

end

theorem alookup_resetFlags : ∀ (fs : List FieldSpec) (n : String),
    (∃ f ∈ fs, f.name = n) →
    alookup (fs.map (fun f => (f.name, false))) n = some false
  | [], n, h => absurd h (by simp)
  | g :: fs, n, h => by
    show (if g.name = n then some false else
      alookup (fs.map (fun f => (f.name, false))) n) = some false
    by_cases hg : g.name = n
    · rw [if_pos hg]
    · rw [if_neg hg]
      apply alookup_resetFlags fs n
      rcases h with ⟨f, hf, hfn⟩
      rcases List.mem_cons.mp hf with rfl | hf2
      · exact absurd hfn hg
      · exact ⟨f, hf2, hfn⟩

theorem loadLoop_once (O : PyOracle) (fields : List FieldSpec) (base : TState) (fuel : Nat)
    (Hcp : ∀ g ∈ fields, g.name = "codepage" → nonRecursive g.kind = true)
    (Henc : ∀ g ∈ fields, g.name = "encoding" → nonRecursive g.kind = true) :
    ∀ (rest : List FieldSpec) (st : TState),
      (∀ f ∈ rest, f ∈ fields) →
      CntB base st → (∀ n, Trig base st n) →
      (∀ st', loadLoop O fields fuel rest st = .ok st' → CntB base st') ∧
      (∀ e st', loadLoop O fields fuel rest st = .error (e, st') → CntB base st')
  | [], st, _, hc, _ =>
    ⟨fun st' h => by
      have h5 : st = st' :=
        congrArg (fun x => match x with | Except.ok s => s | Except.error p => p.2) h
      rw [← h5]
      exact hc,
     fun e st' h => Except.noConfusion h⟩
  | f :: rest, st, hmem, hc, ht => by
    have hmemf : f ∈ fields := hmem f (List.mem_cons_self f rest)
    have hmem' : ∀ g ∈ rest, g ∈ fields := fun g hg => hmem g (List.mem_cons_of_mem f hg)
    by_cases hflag : alookup st.flags f.name = some true
    · refine ⟨?_, ?_⟩
      · intro st' h
        simp only [loadLoop, if_pos hflag] at h
        exact (loadLoop_once O fields base fuel Hcp Henc rest st hmem' hc ht).1 st' h
      · intro e st' h
        simp only [loadLoop, if_pos hflag] at h
        exact (loadLoop_once O fields base fuel Hcp Henc rest st hmem' hc ht).2 e st' h
    · have hcnt : st.counts f.name ≤ base.counts f.name := by
        by_contra hlt
        push_neg at hlt
        exact hflag (ht f.name hlt).2
      have ih := loadFrom_once O fields base fuel f st f.name hmemf
        ⟨hc, fun n _ => ht n⟩ hcnt (Or.inl rfl) Hcp Henc
      refine ⟨?_, ?_⟩
      · intro st' h
        simp only [loadLoop, if_neg hflag] at h
        split at h
        next err heq => exact Except.noConfusion h
        next st1 r heq =>
          have h1 := ih.1 st1 r heq
          have hc1 : CntB base st1 := h1.1.1
          have ht1 : ∀ n, Trig base st1 n := by
            intro n
            by_cases hn : n = f.name
            · exact hn ▸ h1.2
            · exact h1.1.2 n hn
          exact (loadLoop_once O fields base fuel Hcp Henc rest st1 hmem' hc1 ht1).1 st' h
      · intro e st' h
        simp only [loadLoop, if_neg hflag] at h
        split at h
        next err heq =>
          obtain ⟨es, et⟩ := err
          have h5 : et = st' :=
            congrArg (fun x => match x with | Except.ok s => s | Except.error p => p.2) h
          rw [← h5]
          exact ih.2 es et heq
        next st1 r heq =>
          have h1 := ih.1 st1 r heq
          have hc1 : CntB base st1 := h1.1.1
          have ht1 : ∀ n, Trig base st1 n := by
            intro n
            by_cases hn : n = f.name
            · exact hn ▸ h1.2
            · exact h1.1.2 n hn
          exact (loadLoop_once O fields base fuel Hcp Henc rest st1 hmem' hc1 ht1).2
            e st' h

/-- C8: during one `load_fields` pass, provided every declared field named
`codepage` or `encoding` resolves without reading further attributes (as in
Metainfo, whose `encoding` field carries an explicit encoding and whose
`codepage` field is plain), every field's `load_from` starts at most once:
all loaded flags are cleared to `False` before the pass, a field whose flag
is already set when its turn comes is skipped, and whether the pass
completes or aborts on an error, no field's ghost load count has grown by
more than one. -/
theorem load_fields_at_most_once (O : PyOracle) (fields : List FieldSpec) (fuel : Nat)
    (st : TState)
    (H : ∀ g ∈ fields, g.name = "codepage" ∨ g.name = "encoding" →
      nonRecursive g.kind = true) :
    (∀ f ∈ fields, alookup (resetFlags fields st).flags f.name = some false) ∧
    (∀ (rest : List FieldSpec) (f : FieldSpec) (st0 : TState),
       alookup st0.flags f.name = some true →
       loadLoop O fields fuel (f :: rest) st0 = loadLoop O fields fuel rest st0) ∧
    (∀ st', load_fields O fields fuel st = .ok st' →
       ∀ n, st'.counts n ≤ st.counts n + 1) ∧
    (∀ e st', load_fields O fields fuel st = .error (e, st') →
       ∀ n, st'.counts n ≤ st.counts n + 1) := by
  have Hcp : ∀ g ∈ fields, g.name = "codepage" → nonRecursive g.kind = true :=
    fun g hg e => H g hg (Or.inl e)
  have Henc : ∀ g ∈ fields, g.name = "encoding" → nonRecursive g.kind = true :=
    fun g hg e => H g hg (Or.inr e)
  have hloop := loadLoop_once O fields (resetFlags fields st) fuel Hcp Henc fields
    (resetFlags fields st) (fun f hf => hf) (fun n => Nat.le_succ_of_le (Nat.le_refl _))
    (fun n hlt => absurd hlt (lt_irrefl _))
  refine ⟨?_, ?_, ?_, ?_⟩
  · intro f hf
    exact alookup_resetFlags fields f.name ⟨f, hf, rfl⟩
  · intro rest f st0 hf
    show (if alookup st0.flags f.name = some true then loadLoop O fields fuel rest st0
      else match runLoad O fields fuel (.loadFrom f) st0 with
        | .error err => .error err
        | .ok (st1, _) => loadLoop O fields fuel rest st1) =
      loadLoop O fields fuel rest st0
    rw [if_pos hf]
  · intro st' h
    exact hloop.1 st' h
  · intro e st' h
    exact hloop.2 e st' h

theorem load_fields_at_most_once_witness :
    (∀ f ∈ [(⟨"encoding", "encoding",
        FieldKind.encoded (some "ASCII") (fun _ => Except.ok ())⟩ : FieldSpec)],
      alookup (resetFlags [⟨"encoding", "encoding",
        FieldKind.encoded (some "ASCII") (fun _ => Except.ok ())⟩]
        (initState [("encoding", RVal.bytes [65])] none)).flags f.name = some false) ∧
    (∀ (rest : List FieldSpec) (f : FieldSpec) (st0 : TState),
       alookup st0.flags f.name = some true →
       loadLoop pyO [⟨"encoding", "encoding",
           FieldKind.encoded (some "ASCII") (fun _ => Except.ok ())⟩] 2 (f :: rest) st0 =
         loadLoop pyO [⟨"encoding", "encoding",
           FieldKind.encoded (some "ASCII") (fun _ => Except.ok ())⟩] 2 rest st0) ∧
    (∀ st', load_fields pyO [⟨"encoding", "encoding",
         FieldKind.encoded (some "ASCII") (fun _ => Except.ok ())⟩] 2
         (initState [("encoding", RVal.bytes [65])] none) = .ok st' →
       ∀ n, st'.counts n ≤ (initState [("encoding", RVal.bytes [65])] none).counts n + 1) ∧
    (∀ e st', load_fields pyO [⟨"encoding", "encoding",
         FieldKind.encoded (some "ASCII") (fun _ => Except.ok ())⟩] 2
         (initState [("encoding", RVal.bytes [65])] none) = .error (e, st') →
       ∀ n, st'.counts n ≤ (initState [("encoding", RVal.bytes [65])] none).counts n + 1) :=
  load_fields_at_most_once pyO
    [⟨"encoding", "encoding", FieldKind.encoded (some "ASCII") (fun _ => Except.ok ())⟩]
    2 (initState [("encoding", RVal.bytes [65])] none)
    (by
      intro g hg he
      rcases List.mem_cons.mp hg with rfl | hg2
      · decide
      · exact absurd hg2 (List.not_mem_nil g))

theorem name_inj (fields : List FieldSpec)
    (hnames : (fields.map FieldSpec.name).Nodup) :
    ∀ f ∈ fields, ∀ g ∈ fields, f.name = g.name → f = g :=
  fun f hf g hg he => List.inj_on_of_nodup_map hnames hf hg he

theorem flags_finishLoad (f : FieldSpec) (val : Option RVal) (st : TState) (n : String) :
    alookup (finishLoad f val st).flags n =
      if n = f.name then some true else alookup st.flags n :=
  alookup_aset st.flags f.name true n

theorem keysGone_finish (fields : List FieldSpec)
    (hnames : (fields.map FieldSpec.name).Nodup) (g : FieldSpec) (hg : g ∈ fields)
    (val : Option RVal) (st : TState) (hdata : (st.data.map Prod.fst).Nodup)
    (hP : KeysGone fields st) : KeysGone fields (finishLoad g val st) := by
  intro f hf hflag
  rw [flags_finishLoad] at hflag
  have hd : alookup (finishLoad g val st).data f.key =
      if f.key = g.key then none else alookup st.data f.key :=
    alookup_adelete_eq st.data g.key f.key hdata
  by_cases hfg : f.name = g.name
  · have hfe : f = g := name_inj fields hnames f hf g hg hfg
    rw [hd, hfe, if_pos rfl]
  · rw [if_neg hfg] at hflag
    have h0 := hP f hf hflag
    rw [hd]
    by_cases hk : f.key = g.key
    · rw [if_pos hk]
    · rw [if_neg hk]
      exact h0

theorem runLoad_flagMono (O : PyOracle) (fields : List FieldSpec) :
    ∀ (fuel : Nat) (c : LoadCall) (st : TState) (n : String),
      alookup st.flags n = some true →
      alookup (resState (runLoad O fields fuel c st)).flags n = some true
  | 0, _, st, n, h => h
  | fuel + 1, .getat name, st, n, h => by
    simp only [runLoad]
    split
    · exact h
    · split
      · exact h
      · split
        · exact h
        · exact runLoad_flagMono O fields fuel _ st n h
  | fuel + 1, .loadFrom f, st, n, h => by
    have hfin : ∀ (val : Option RVal) (st0 : TState), alookup st0.flags n = some true →
        alookup (finishLoad f val st0).flags n = some true := by
      intro val st0 h0
      rw [flags_finishLoad]
      by_cases hn : n = f.name
      · rw [if_pos hn]
      · rw [if_neg hn]
        exact h0
    simp only [runLoad]
    split
    · split
      · exact hfin none _ h
      · split
        · exact h
        · split
          · exact h
          · exact hfin _ _ h
    · split
      · exact hfin none _ h
      · split
        · split
          · exact runLoad_flagMono O fields fuel _ _ n h
          · split
            · split
              · exact h
              · exact hfin _ _ h
            · exact h
        · exact runLoad_flagMono O fields fuel _ _ n h
      · exact h
  | fuel + 1, .ctxResolve f bs, st, n, h => by
    simp only [runLoad]
    split
    next e1 heq1 =>
      have ih := runLoad_flagMono O fields fuel (.getat "codepage") st n h
      rw [heq1] at ih
      exact ih
    next st1 cpv heq1 =>
      have ih1 := runLoad_flagMono O fields fuel (.getat "codepage") st n h
      rw [heq1] at ih1
      split
      next e2 heq2 =>
        have ih2 := runLoad_flagMono O fields fuel (.getat "encoding") st1 n ih1
        rw [heq2] at ih2
        exact ih2
      next st2 encv heq2 =>
        have ih2 := runLoad_flagMono O fields fuel (.getat "encoding") st1 n ih1
        rw [heq2] at ih2
        split
        · exact ih2
        · split
          next s2 heq3 =>
            split
            · exact ih2
            · show alookup (finishLoad f (some (RVal.str s2)) st2).flags n = some true
              rw [flags_finishLoad]
              by_cases hn : n = f.name
              · rw [if_pos hn]
              · rw [if_neg hn]
                exact ih2
          next heq3 => exact ih2

theorem ctx_ok_flag (O : PyOracle) (fields : List FieldSpec) :
    ∀ (fuel : Nat) (f : FieldSpec) (bs : List Nat) (st st' : TState) (r : Option RVal),
      runLoad O fields fuel (.ctxResolve f bs) st = .ok (st', r) →
      alookup st'.flags f.name = some true
  | 0, f, bs, st, st', r, h => Except.noConfusion h
  | fuel + 1, f, bs, st, st', r, h => by
    simp only [runLoad] at h
    split at h
    next e1 heq1 => exact Except.noConfusion h
    next st1 cpv heq1 =>
      split at h
      next e2 heq2 => exact Except.noConfusion h
      next st2 encv heq2 =>
        split at h
        · exact Except.noConfusion h
        · split at h
          next s2 heq3 =>
            split at h
            next e4 heq4 => exact Except.noConfusion h
            next u heq4 =>
              have h5 : finishLoad f (some (RVal.str s2)) st2 = st' := congrArg resState h
              rw [← h5, flags_finishLoad, if_pos rfl]
          next heq3 => exact Except.noConfusion h

theorem loadFrom_ok_flag (O : PyOracle) (fields : List FieldSpec) :
    ∀ (fuel : Nat) (f : FieldSpec) (st st' : TState) (r : Option RVal),
      runLoad O fields fuel (.loadFrom f) st = .ok (st', r) →
      alookup st'.flags f.name = some true
  | 0, f, st, st', r, h => Except.noConfusion h
  | fuel + 1, f, st, st', r, h => by
    simp only [runLoad] at h
    split at h
    next load validate heqk =>
      split at h
      · have h5 : finishLoad f none (bump f.name st) = st' := congrArg resState h
        rw [← h5, flags_finishLoad, if_pos rfl]
      · split at h
        next e2 heq2 => exact Except.noConfusion h
        next v heq2 =>
          split at h
          next e3 heq3 => exact Except.noConfusion h
          next u heq3 =>
            have h5 : finishLoad f (some v) (bump f.name st) = st' := congrArg resState h
            rw [← h5, flags_finishLoad, if_pos rfl]
    next explicit validate heqk =>
      split at h
      · have h5 : finishLoad f none (bump f.name st) = st' := congrArg resState h
        rw [← h5, flags_finishLoad, if_pos rfl]
      next bs2 heqb =>
        split at h
        next enc =>
          split at h
          next hcond => exact ctx_ok_flag O fields fuel f bs2 (bump f.name st) st' r h
          next hcond =>
            split at h
            next s2 heq3 =>
              split at h
              next e4 heq4 => exact Except.noConfusion h
              next u heq4 =>
                have h5 : finishLoad f (some (RVal.str s2)) (bump f.name st) = st' :=
                  congrArg resState h
                rw [← h5, flags_finishLoad, if_pos rfl]
            next heq3 => exact Except.noConfusion h
        · exact ctx_ok_flag O fields fuel f bs2 (bump f.name st) st' r h
      next v heqb hne => exact Except.noConfusion h

theorem runLoad_keysGone (O : PyOracle) (fields : List FieldSpec)
    (hnames : (fields.map FieldSpec.name).Nodup) :
    ∀ (fuel : Nat) (c : LoadCall) (st : TState),
      (match c with
       | .loadFrom f => f ∈ fields
       | .getat _ => True
       | .ctxResolve f _ => f ∈ fields) →
      (st.data.map Prod.fst).Nodup →
      KeysGone fields st →
      KeysGone fields (resState (runLoad O fields fuel c st))
  | 0, c, st, _, _, hP => hP
  | fuel + 1, .getat name, st, hc, hdata, hP => by
    by_cases hfb : name = "fallback_encoding"
    · simp only [runLoad, if_pos hfb]
      exact hP
    · rcases hfind : List.find? (fun g => g.name == name) fields with _ | g
      · simp only [runLoad, if_neg hfb, hfind]
        exact hP
      · rcases hslot : alookup st.slots g.name with _ | v
        · simp only [runLoad, if_neg hfb, hfind, hslot]
          exact runLoad_keysGone O fields hnames fuel (.loadFrom g) st
            (List.mem_of_find?_eq_some hfind) hdata hP
        · simp only [runLoad, if_neg hfb, hfind, hslot]
          exact hP
  | fuel + 1, .loadFrom f, st, hc, hdata, hP => by
    have hmem : f ∈ fields := hc
    simp only [runLoad]
    split
    · split
      · exact keysGone_finish fields hnames f hmem none (bump f.name st) hdata hP
      · split
        · exact hP
        · split
          · exact hP
          · exact keysGone_finish fields hnames f hmem _ (bump f.name st) hdata hP
    · split
      · exact keysGone_finish fields hnames f hmem none (bump f.name st) hdata hP
      · split
        · split
          · exact runLoad_keysGone O fields hnames fuel (.ctxResolve f _) (bump f.name st)
              hmem hdata hP
          · split
            · split
              · exact hP
              · exact keysGone_finish fields hnames f hmem _ (bump f.name st) hdata hP
            · exact hP
        · exact runLoad_keysGone O fields hnames fuel (.ctxResolve f _) (bump f.name st)
            hmem hdata hP
      · exact hP
  | fuel + 1, .ctxResolve f bs, st, hc, hdata, hP => by
    have hmem : f ∈ fields := hc
    simp only [runLoad]
    split
    next e1 heq1 =>
      have ih := runLoad_keysGone O fields hnames fuel (.getat "codepage") st trivial
        hdata hP
      rw [heq1] at ih
      exact ih
    next st1 cpv heq1 =>
      have ih1 := runLoad_keysGone O fields hnames fuel (.getat "codepage") st trivial
        hdata hP
      rw [heq1] at ih1
      have hd1 := (runLoad_shrinks O fields fuel (.getat "codepage") st hdata).1
      rw [heq1] at hd1
      split
      next e2 heq2 =>
        have ih2 := runLoad_keysGone O fields hnames fuel (.getat "encoding") st1 trivial
          hd1 ih1
        rw [heq2] at ih2
        exact ih2
      next st2 encv heq2 =>
        have ih2 := runLoad_keysGone O fields hnames fuel (.getat "encoding") st1 trivial
          hd1 ih1
        rw [heq2] at ih2
        have hd2 := (runLoad_shrinks O fields fuel (.getat "encoding") st1 hd1).1
        rw [heq2] at hd2
        split
        · exact ih2
        · split
          · split
            · exact ih2
            · exact keysGone_finish fields hnames f hmem _ st2 hd2 ih2
          · exact ih2

theorem loadLoop_done (O : PyOracle) (fields : List FieldSpec) (fuel : Nat)
    (hnames : (fields.map FieldSpec.name).Nodup) :
    ∀ (rest : List FieldSpec) (st : TState),
      (∀ f ∈ rest, f ∈ fields) →
      (st.data.map Prod.fst).Nodup →
      KeysGone fields st →
      ∀ st', loadLoop O fields fuel rest st = .ok st' →
        (∀ n, alookup st.flags n = some true → alookup st'.flags n = some true) ∧
        (∀ f ∈ rest, alookup st'.flags f.name = some true) ∧
        KeysGone fields st'
  | [], st, _, _, hP, st', h => by
    have h5 : st = st' :=
      congrArg (fun x => match x with | Except.ok s => s | Except.error p => p.2) h
    rw [← h5]
    exact ⟨fun n hn => hn, fun f hf => absurd hf (List.not_mem_nil f), hP⟩
  | f :: rest, st, hmem, hdata, hP, st', h => by
    have hmemf : f ∈ fields := hmem f (List.mem_cons_self f rest)
    have hmem' : ∀ g ∈ rest, g ∈ fields := fun g hg => hmem g (List.mem_cons_of_mem f hg)
    by_cases hflag : alookup st.flags f.name = some true
    · simp only [loadLoop, if_pos hflag] at h
      have ih := loadLoop_done O fields fuel hnames rest st hmem' hdata hP st' h
      refine ⟨ih.1, ?_, ih.2.2⟩
      intro g hg
      rcases List.mem_cons.mp hg with rfl | hg2
      · exact ih.1 g.name hflag
      · exact ih.2.1 g hg2
    · simp only [loadLoop, if_neg hflag] at h
      split at h
      next err heq => exact Except.noConfusion h
      next st1 r heq =>
        have hflag1 : alookup st1.flags f.name = some true :=
          loadFrom_ok_flag O fields fuel f st st1 r heq
        have hdata1 : (st1.data.map Prod.fst).Nodup := by
          have h2 := (runLoad_shrinks O fields fuel (.loadFrom f) st hdata).1
          rw [heq] at h2
          exact h2
        have hP1 : KeysGone fields st1 := by
          have h2 := runLoad_keysGone O fields hnames fuel (.loadFrom f) st hmemf hdata hP
          rw [heq] at h2
          exact h2
        have hmono1 : ∀ n, alookup st.flags n = some true →
            alookup st1.flags n = some true := by
          intro n hn
          have h2 := runLoad_flagMono O fields fuel (.loadFrom f) st n hn
          rw [heq] at h2
          exact h2
        have ih := loadLoop_done O fields fuel hnames rest st1 hmem' hdata1 hP1 st' h
        refine ⟨fun n hn => ih.1 n (hmono1 n hn), ?_, ih.2.2⟩
        intro g hg
        rcases List.mem_cons.mp hg with rfl | hg2
        · exact ih.1 g.name hflag1
        · exact ih.2.1 g hg2

/-- C10: unless constructed lazily, the record bulk-loads every declared
field during construction: a load failure fails construction itself with
that error, and on success construction returns the loaded state, in which
no declared field's key remains in the backing dictionary (given distinct
field names and distinct dictionary keys). -/
theorem backbone_nonlazy_loads (O : PyOracle) (fields : List FieldSpec)
    (fb : Option String) (fuel : Nat) (raw : List Nat) (qs : List (String × RVal))
    (hdec : bdecodeK raw = .ok (.dict qs))
    (hnames : (fields.map FieldSpec.name).Nodup)
    (hdata : (qs.map Prod.fst).Nodup) :
    (∀ e st', load_fields O fields fuel (initState qs fb) = .error (e, st') →
       backboneInit O fields fb false fuel raw = .error e) ∧
    (∀ st', load_fields O fields fuel (initState qs fb) = .ok st' →
       backboneInit O fields fb false fuel raw = .ok st' ∧
       ∀ f ∈ fields, alookup st'.data f.key = none) := by
  constructor
  · intro e st' h
    simp [backboneInit, hdec, h]
  · intro st' h
    constructor
    · simp [backboneInit, hdec, h]
    · have hP0 : KeysGone fields (resetFlags fields (initState qs fb)) := by
        intro f hf hflag
        have hflag2 : alookup (fields.map (fun g => (g.name, false))) f.name =
            some true := hflag
        rw [alookup_resetFlags fields f.name ⟨f, hf, rfl⟩] at hflag2
        exact absurd (Option.some.inj hflag2) Bool.noConfusion
      have hdone := loadLoop_done O fields fuel hnames fields
        (resetFlags fields (initState qs fb)) (fun f hf => hf) hdata hP0 st' h
      intro f hf
      exact hdone.2.2 f hf (hdone.2.1 f hf)

theorem backbone_nonlazy_loads_witness :
    (∀ e st', load_fields pyO
         [⟨"private", "private", FieldKind.plain (fun v => Except.ok v)
            (fun _ => Except.ok ())⟩] 1
         (initState [("private", RVal.int 1)] none) = .error (e, st') →
       backboneInit pyO [⟨"private", "private", FieldKind.plain (fun v => Except.ok v)
           (fun _ => Except.ok ())⟩] none false 1
         (bstr "d7:privatei1ee") = .error e) ∧
    (∀ st', load_fields pyO
         [⟨"private", "private", FieldKind.plain (fun v => Except.ok v)
            (fun _ => Except.ok ())⟩] 1
         (initState [("private", RVal.int 1)] none) = .ok st' →
       backboneInit pyO [⟨"private", "private", FieldKind.plain (fun v => Except.ok v)
           (fun _ => Except.ok ())⟩] none false 1
         (bstr "d7:privatei1ee") = .ok st' ∧
       ∀ f ∈ [(⟨"private", "private", FieldKind.plain (fun v => Except.ok v)
           (fun _ => Except.ok ())⟩ : FieldSpec)],
         alookup st'.data f.key = none) :=
  backbone_nonlazy_loads pyO
    [⟨"private", "private", FieldKind.plain (fun v => Except.ok v) (fun _ => Except.ok ())⟩]
    none 1 (bstr "d7:privatei1ee") [("private", RVal.int 1)] rfl
    (by decide) (by decide)

end Clot
